import Mathlib

/-!
Verification of the image-localizer utility (`replace.py`).

The development shallowly embeds the program: document texts, alt texts,
URLs and file names are `List Char`; the network is an oracle indexed by
the number of requests issued so far; the local image directory is a list
of (file name, byte content) pairs; the surrounding filesystem is a list
of (path, file data) pairs.  Machinery that the program takes from the
Python standard library and that its behaviour depends on (str.replace,
re.findall for the one regex it uses, hashlib.md5, os.path.splitext,
urllib.parse.urlparse path extraction, pathlib with_suffix / glob) is
embedded faithfully from the documented CPython semantics.  Console and
log output are not modelled (the spec declares them out of scope).
-/

set_option maxRecDepth 10000

/-- Program strings (document text, URLs, alt texts, file names). -/
abbrev Str := List Char

/-! ### Python `str.replace`

`content.replace(old, new)` replaces every non-overlapping occurrence of
`old`, scanning left to right; an empty pattern inserts `new` between all
characters.  The recursion is made structural with a fuel argument; the
wrapper supplies fuel `s.length`, which is always sufficient. -/

def pyReplaceGo (pat rep : Str) : Nat → Str → Str
  | _, [] => if pat = [] then rep else []
  | 0, s => s
  | fuel + 1, c :: cs =>
    if pat = [] then rep ++ c :: pyReplaceGo pat rep fuel cs
    else if pat.isPrefixOf (c :: cs) then
      rep ++ pyReplaceGo pat rep fuel ((c :: cs).drop pat.length)
    else c :: pyReplaceGo pat rep fuel cs

/-- Python `content.replace(pat, rep)`. -/
def pyReplace (pat rep s : Str) : Str := pyReplaceGo pat rep s.length s

theorem pyReplaceGo_fuel (pat rep : Str) :
    ∀ fuel₁ fuel₂ s, s.length ≤ fuel₁ → s.length ≤ fuel₂ →
      pyReplaceGo pat rep fuel₁ s = pyReplaceGo pat rep fuel₂ s := by
  intro fuel₁
  induction fuel₁ with
  | zero =>
    intro fuel₂ s h1 _
    have hs : s = [] := List.eq_nil_of_length_eq_zero (Nat.le_zero.mp h1)
    subst hs
    cases fuel₂ <;> simp [pyReplaceGo]
  | succ f ih =>
    intro fuel₂ s h1 h2
    cases s with
    | nil => cases fuel₂ <;> simp [pyReplaceGo]
    | cons c cs =>
      cases fuel₂ with
      | zero => exact absurd h2 (by simp)
      | succ g =>
        simp only [pyReplaceGo]
        have hcs1 : cs.length ≤ f := by simp only [List.length_cons] at h1; omega
        have hcs2 : cs.length ≤ g := by simp only [List.length_cons] at h2; omega
        by_cases hp : pat = []
        · simp only [if_pos hp]
          rw [ih g cs hcs1 hcs2]
        · simp only [hp, if_false]
          by_cases hpre : pat.isPrefixOf (c :: cs)
          · have hdl : ((c :: cs).drop pat.length).length ≤ cs.length := by
              have hplen : 1 ≤ pat.length := by
                cases pat with
                | nil => exact absurd rfl hp
                | cons _ _ => simp
              simp only [List.length_drop, List.length_cons]
              omega
            simp [hpre, ih g _ (le_trans hdl hcs1) (le_trans hdl hcs2)]
          · simp [hpre, ih g cs hcs1 hcs2]

theorem pyReplace_nil (pat rep : Str) :
    pyReplace pat rep [] = if pat = [] then rep else [] := rfl

theorem pyReplace_cons (pat rep : Str) (c : Char) (cs : Str) :
    pyReplace pat rep (c :: cs) =
      if pat = [] then rep ++ c :: pyReplace pat rep cs
      else if pat.isPrefixOf (c :: cs) then
        rep ++ pyReplace pat rep ((c :: cs).drop pat.length)
      else c :: pyReplace pat rep cs := by
  unfold pyReplace
  simp only [List.length_cons, pyReplaceGo]
  by_cases hp : pat = []
  · simp [hp, pyReplaceGo_fuel pat rep cs.length cs.length cs (le_refl _) (le_refl _)]
  · simp only [hp, if_false]
    by_cases hpre : pat.isPrefixOf (c :: cs)
    · have hd : ((c :: cs).drop pat.length).length ≤ cs.length := by
        have hplen : 1 ≤ pat.length := by
          cases pat with
          | nil => exact absurd rfl hp
          | cons _ _ => simp
        simp only [List.length_drop, List.length_cons]
        omega
      simp only [hpre, if_true]
      rw [pyReplaceGo_fuel pat rep cs.length ((c :: cs).drop pat.length).length _ hd (le_refl _)]
    · simp [hpre]

example : pyReplace "ab".data "xa".data "abb".data = "xab".data := by decide

example : pyReplace "aa".data "b".data "aaaa".data = "bb".data := by decide

/-! ### The image-link regex

`re.findall(r'!\[(.*?)\]\((http[^)]+)\)', content)` — at each position the
engine tries to match `![`, then a lazy alt capture (shortest first, `.`
does not match a newline), then `](`, the literal `http`, one or more
non-`)` characters (necessarily maximal, up to the next `)`), and `)`.
After a match, scanning resumes after the match; after a failure it
advances one character. -/

/-- Match `](http[^)]+)` at the head of `s`; on success return the url
capture (`http` plus the following non-`)` run) and the remainder. -/
def tryClose : Str → Option (Str × Str)
  | ']' :: '(' :: 'h' :: 't' :: 't' :: 'p' :: rest =>
    let chunk := rest.takeWhile (fun c => c ≠ ')')
    match rest.dropWhile (fun c => c ≠ ')') , chunk with
    | ')' :: rest2, _ :: _ => some ('h' :: 't' :: 't' :: 'p' :: chunk, rest2)
    | _, _ => none
  | _ => none

/-- The lazy `(.*?)\]\((http[^)]+)\)` part: try to close with the shortest
alt first, extending the alt one (non-newline) character at a time. -/
def lazyAlt : Str → Option (Str × Str × Str)
  | [] => none
  | c :: cs =>
    match tryClose (c :: cs) with
    | some (url, rest) => some ([], url, rest)
    | none =>
      if c = '\n' then none
      else
        match lazyAlt cs with
        | some (alt, url, rest) => some (c :: alt, url, rest)
        | none => none

/-- Try the full regex at the head of `s`. -/
def tryMatch (s : Str) : Option (Str × Str × Str) :=
  match s with
  | '!' :: '[' :: rest => lazyAlt rest
  | _ => none

theorem tryClose_length {s url rest : Str} (h : tryClose s = some (url, rest)) :
    rest.length < s.length := by
  unfold tryClose at h
  split at h
  · next r =>
    dsimp only at h
    split at h
    · next rest2 t chunk hdrop htake =>
      injection h with h
      injection h with h1 h2
      subst h2
      have hlen : (r.dropWhile (fun c => decide (c ≠ ')'))).length ≤ r.length :=
        (List.dropWhile_sublist _).length_le
      rw [hdrop] at hlen
      simp only [List.length_cons] at hlen
      simp only [List.length_cons]
      omega
    · exact absurd h (by simp)
  · exact absurd h (by simp)

theorem lazyAlt_length {s alt url rest : Str}
    (h : lazyAlt s = some (alt, url, rest)) : rest.length < s.length := by
  induction s generalizing alt with
  | nil => simp [lazyAlt] at h
  | cons c cs ih =>
    simp only [lazyAlt] at h
    rcases hc : tryClose (c :: cs) with _ | ⟨url', rest'⟩ <;> rw [hc] at h
    · by_cases hnl : c = '\n'
      · simp [hnl] at h
      · simp only [hnl, if_false] at h
        rcases hl : lazyAlt cs with _ | ⟨⟨alt', url', rest'⟩⟩ <;> rw [hl] at h <;>
          simp at h
        rcases h with ⟨h1, h2, h3⟩
        subst h3
        have := @ih alt' (by rw [hl, h2])
        simp only [List.length_cons]
        omega
    · simp at h
      rcases h with ⟨h1, h2, h3⟩
      subst h3
      exact tryClose_length (by rw [hc, h2])

theorem tryMatch_length {s alt url rest : Str}
    (h : tryMatch s = some (alt, url, rest)) : rest.length < s.length := by
  unfold tryMatch at h
  split at h
  · next r =>
    have := lazyAlt_length h
    simp only [List.length_cons]
    omega
  · exact absurd h (by simp)

/-- Fuel-structural scanner; the wrapper passes fuel `s.length`. -/
def findLinksGo : Nat → Str → List (Str × Str)
  | _, [] => []
  | 0, _ :: _ => []
  | fuel + 1, c :: cs =>
    match tryMatch (c :: cs) with
    | some (alt, url, rest) => (alt, url) :: findLinksGo fuel rest
    | none => findLinksGo fuel cs

/-- `re.findall(r'!\[(.*?)\]\((http[^)]+)\)', s)`. -/
def findLinks (s : Str) : List (Str × Str) := findLinksGo s.length s

theorem findLinksGo_fuel :
    ∀ fuel₁ fuel₂ s, s.length ≤ fuel₁ → s.length ≤ fuel₂ →
      findLinksGo fuel₁ s = findLinksGo fuel₂ s := by
  intro fuel₁
  induction fuel₁ with
  | zero =>
    intro fuel₂ s h1 _
    have hs : s = [] := List.eq_nil_of_length_eq_zero (Nat.le_zero.mp h1)
    subst hs
    cases fuel₂ <;> simp [findLinksGo]
  | succ f ih =>
    intro fuel₂ s h1 h2
    cases s with
    | nil => cases fuel₂ <;> simp [findLinksGo]
    | cons c cs =>
      cases fuel₂ with
      | zero => exact absurd h2 (by simp)
      | succ g =>
        simp only [findLinksGo]
        have hcs1 : cs.length ≤ f := by simp only [List.length_cons] at h1; omega
        have hcs2 : cs.length ≤ g := by simp only [List.length_cons] at h2; omega
        rcases hm : tryMatch (c :: cs) with _ | ⟨alt, url, rest⟩
        · exact ih g cs hcs1 hcs2
        · have hr := tryMatch_length hm
          simp only [List.length_cons] at hr
          dsimp only
          rw [ih g rest (by omega) (by omega)]

theorem findLinks_nil : findLinks [] = [] := rfl

theorem findLinks_cons (c : Char) (cs : Str) :
    findLinks (c :: cs) =
      match tryMatch (c :: cs) with
      | some (alt, url, rest) => (alt, url) :: findLinks rest
      | none => findLinks cs := by
  unfold findLinks
  simp only [List.length_cons, findLinksGo]
  rcases hm : tryMatch (c :: cs) with _ | ⟨alt, url, rest⟩
  · exact findLinksGo_fuel cs.length cs.length cs (le_refl _) (le_refl _)
  · have hr := tryMatch_length hm
    simp only [List.length_cons] at hr
    dsimp only
    rw [findLinksGo_fuel cs.length rest.length rest (by omega) (le_refl _)]

/-! ### URL path extraction and extension inference

`get_image_extension` uses `urllib.parse.urlparse(url).path` and
`os.path.splitext`.  The embedding follows CPython: `urlsplit` strips
leading C0-control/space characters, removes tab/CR/LF, splits a
scheme (first char an ASCII letter, all scheme chars), a `//`-netloc
(up to `/`, `?` or `#`), then fragment (first `#`) and query (first `?`);
`urlparse` additionally splits `;`-params off the last path segment for
schemes that use them.  (Host-bracket validation errors are not
modelled.)  `os.path.splitext` is the POSIX variant: the extension starts
at the last dot of the basename, unless the basename consists only of
leading dots up to that position. -/

def lowerStr (s : Str) : Str := s.map Char.toLower

def isSchemeChar (c : Char) : Bool :=
  c.isAlphanum || c = '+' || c = '-' || c = '.'

def stripC0 (s : Str) : Str :=
  s.dropWhile (fun c => c.toNat ≤ 32)

def removeUnsafe (s : Str) : Str :=
  s.filter (fun c => ¬ (c = '\t' ∨ c = '\r' ∨ c = '\n'))

/-- Head character is an ASCII letter (the scheme must start with one). -/
def headIsAlpha : Str → Bool
  | c :: _ => c.isAlpha
  | [] => false

/-- Split off `scheme:`; returns (lowercased scheme, remainder). -/
def splitScheme (url : Str) : Str × Str :=
  let pre := url.takeWhile (fun c => c ≠ ':')
  if decide (pre.length < url.length) && !pre.isEmpty && headIsAlpha url &&
      pre.all isSchemeChar then
    (lowerStr pre, url.drop (pre.length + 1))
  else ([], url)

/-- Drop a leading `//netloc`; returns the remainder (starting at the
delimiter, as CPython's `_splitnetloc` does). -/
def splitNetloc : Str → Str
  | '/' :: '/' :: r => r.dropWhile (fun c => ¬ (c = '/' ∨ c = '?' ∨ c = '#'))
  | s => s

def usesParams : List Str :=
  [[], "ftp".data, "hdl".data, "prospero".data, "http".data, "imap".data,
   "https".data, "shttp".data, "rtsp".data, "rtspu".data, "sip".data,
   "sips".data, "mms".data, "sftp".data, "tel".data]

/-- CPython `_splitparams`, keeping only the path part. -/
def splitParams (path : Str) : Str :=
  if '/' ∈ path then
    let seg := (path.reverse.takeWhile (fun c => c ≠ '/')).reverse
    if ';' ∈ seg then
      path.take (path.length - seg.length) ++ seg.takeWhile (fun c => c ≠ ';')
    else path
  else path.takeWhile (fun c => c ≠ ';')

/-- `urllib.parse.urlparse(url).path`. -/
def urlPath (url : Str) : Str :=
  let u := removeUnsafe (stripC0 url)
  let p := splitScheme u
  let u2 := splitNetloc p.2
  let u3 := u2.takeWhile (fun c => c ≠ '#')
  let u4 := u3.takeWhile (fun c => c ≠ '?')
  if p.1 ∈ usesParams ∧ ';' ∈ u4 then splitParams u4 else u4

/-- `os.path.splitext(p)[1]` (POSIX). -/
def splitextExt (p : Str) : Str :=
  let base := (p.reverse.takeWhile (fun c => c ≠ '/')).reverse
  if '.' ∈ base then
    let afterRev := base.reverse.takeWhile (fun c => c ≠ '.')
    let pre := base.take (base.length - afterRev.length - 1)
    if pre.any (fun c => c ≠ '.') then '.' :: afterRev.reverse else []
  else []

/-- The content-type → extension table (`ext_map.get(..., '')`). -/
def extMap (ct : Str) : Str :=
  if ct = "image/jpeg".data then "jpg".data
  else if ct = "image/png".data then "png".data
  else if ct = "image/gif".data then "gif".data
  else if ct = "image/webp".data then "webp".data
  else if ct = "image/svg+xml".data then "svg".data
  else if ct = "image/x-icon".data then "ico".data
  else []

/-- The URL-suffix fallback of `get_image_extension`: the `splitext`
suffix without the dot, lowercased, else the default `jpg`. -/
def urlExtFallback (url : Str) : Str :=
  let ext := splitextExt (urlPath url)
  if ext ≠ [] then lowerStr (ext.drop 1) else "jpg".data

/-- `ImageDownloader.get_image_extension(url, content_type)`.  A `some []`
content type is falsy in Python, like `None`. -/
def get_image_extension (url : Str) (contentType : Option Str) : Str :=
  match contentType with
  | some ct =>
    if ct ≠ [] then
      let e := extMap (lowerStr ct)
      if e ≠ [] then e else urlExtFallback url
    else urlExtFallback url
  | none => urlExtFallback url

/-! ### pathlib name manipulation -/

/-- `PurePath.suffix` of a file name: from the last dot, provided it is
neither the first nor the last character. -/
def pathSuffix (name : Str) : Str :=
  if '.' ∈ name then
    let afterRev := name.reverse.takeWhile (fun c => c ≠ '.')
    let i := name.length - afterRev.length - 1
    if 0 < i ∧ i < name.length - 1 then '.' :: afterRev.reverse else []
  else []

/-- `PurePath.with_suffix` on the file name; `none` models the
`ValueError` raised for an invalid suffix or empty name. -/
def withSuffixName (name suffix : Str) : Option Str :=
  if '/' ∈ suffix then none
  else if (suffix ≠ [] ∧ suffix.head? ≠ some '.') ∨ suffix = ['.'] then none
  else if name = [] then none
  else some (name.take (name.length - (pathSuffix name).length) ++ suffix)

/-! ### MD5 (`hashlib.md5(url.encode()).hexdigest()`)

The URL is UTF-8 encoded and hashed with standard MD5; the cache key is
the lowercase hex digest.  All arithmetic is `Nat` reduced mod `2 ^ 32`.
-/

/-- UTF-8 encoding of a character (code point to 1–4 bytes). -/
def utf8Char (c : Char) : List Nat :=
  let n := c.toNat
  if n < 0x80 then [n]
  else if n < 0x800 then [0xC0 + n / 64, 0x80 + n % 64]
  else if n < 0x10000 then
    [0xE0 + n / 4096, 0x80 + n / 64 % 64, 0x80 + n % 64]
  else
    [0xF0 + n / 262144, 0x80 + n / 4096 % 64, 0x80 + n / 64 % 64,
     0x80 + n % 64]

/-- `s.encode()`: UTF-8 bytes of a string. -/
def utf8Encode (s : Str) : List Nat := s.flatMap utf8Char

def md5K : List Nat :=
  [3614090360, 3905402710, 606105819, 3250441966,
   4118548399, 1200080426, 2821735955, 4249261313,
   1770035416, 2336552879, 4294925233, 2304563134,
   1804603682, 4254626195, 2792965006, 1236535329,
   4129170786, 3225465664, 643717713, 3921069994,
   3593408605, 38016083, 3634488961, 3889429448,
   568446438, 3275163606, 4107603335, 1163531501,
   2850285829, 4243563512, 1735328473, 2368359562,
   4294588738, 2272392833, 1839030562, 4259657740,
   2763975236, 1272893353, 4139469664, 3200236656,
   681279174, 3936430074, 3572445317, 76029189,
   3654602809, 3873151461, 530742520, 3299628645,
   4096336452, 1126891415, 2878612391, 4237533241,
   1700485571, 2399980690, 4293915773, 2240044497,
   1873313359, 4264355552, 2734768916, 1309151649,
   4149444226, 3174756917, 718787259, 3951481745]

def md5S : List Nat :=
  [7, 12, 17, 22, 7, 12, 17, 22, 7, 12, 17, 22, 7, 12, 17, 22,
   5, 9, 14, 20, 5, 9, 14, 20, 5, 9, 14, 20, 5, 9, 14, 20,
   4, 11, 16, 23, 4, 11, 16, 23, 4, 11, 16, 23, 4, 11, 16, 23,
   6, 10, 15, 21, 6, 10, 15, 21, 6, 10, 15, 21, 6, 10, 15, 21]

def w32 : Nat := 4294967296

def rotl32 (x r : Nat) : Nat :=
  (x * 2 ^ r + x / 2 ^ (32 - r)) % w32

def mdPad (msg : List Nat) : List Nat :=
  let lenBits := (8 * msg.length) % 2 ^ 64
  let padLen := (55 + 64 - msg.length % 64) % 64 + 1
  msg ++ (128 :: List.replicate (padLen - 1) 0) ++
    (List.range 8).map (fun i => lenBits / 2 ^ (8 * i) % 256)

/-- Little-endian 32-bit words of one 64-byte chunk. -/
def chunkWords (chunk : List Nat) : List Nat :=
  (List.range 16).map (fun i =>
    (chunk.getD (4 * i) 0) + (chunk.getD (4 * i + 1) 0) * 256 +
      (chunk.getD (4 * i + 2) 0) * 65536 + (chunk.getD (4 * i + 3) 0) * 16777216)

/-- One MD5 round on `(A, B, C, D)`. -/
def md5Round (m : List Nat) (st : Nat × Nat × Nat × Nat) (i : Nat) :
    Nat × Nat × Nat × Nat :=
  let (a, b, c, d) := st
  let f :=
    if i < 16 then (b &&& c) ||| ((w32 - 1) ^^^ b) &&& d
    else if i < 32 then (d &&& b) ||| ((w32 - 1) ^^^ d) &&& c
    else if i < 48 then b ^^^ c ^^^ d
    else c ^^^ (b ||| ((w32 - 1) ^^^ d))
  let g :=
    if i < 16 then i
    else if i < 32 then (5 * i + 1) % 16
    else if i < 48 then (3 * i + 5) % 16
    else (7 * i) % 16
  let t := (f + a + md5K.getD i 0 + m.getD g 0) % w32
  (d, (b + rotl32 t (md5S.getD i 0)) % w32, b, c)

/-- Process the padded message 64 bytes at a time (structural via fuel;
each step consumes 64 bytes, so fuel `bytes.length` suffices). -/
def md5ChunksGo : Nat → List Nat → Nat × Nat × Nat × Nat → Nat × Nat × Nat × Nat
  | _, [], st => st
  | 0, _ :: _, st => st
  | fuel + 1, bytes, st =>
    let m := chunkWords (bytes.take 64)
    let (a, b, c, d) := st
    let (a', b', c', d') := (List.range 64).foldl (md5Round m) st
    md5ChunksGo fuel (bytes.drop 64)
      ((a + a') % w32, (b + b') % w32, (c + c') % w32, (d + d') % w32)

def md5Chunks (bytes : List Nat) (st : Nat × Nat × Nat × Nat) :
    Nat × Nat × Nat × Nat :=
  md5ChunksGo bytes.length bytes st

def md5Digest (msg : List Nat) : List Nat :=
  let (a, b, c, d) :=
    md5Chunks (mdPad msg) (1732584193, 4023233417, 2562383102, 271733878)
  [a, b, c, d].flatMap (fun x => (List.range 4).map (fun i => x / 2 ^ (8 * i) % 256))

def hexChars : Str := "0123456789abcdef".data

def byteHex (b : Nat) : Str := [hexChars.getD (b / 16) '0', hexChars.getD (b % 16) '0']

/-- `hashlib.md5(s.encode()).hexdigest()`. -/
def md5Hex (s : Str) : Str := (md5Digest (utf8Encode s)).flatMap byteHex

example : md5Hex "".data = "d41d8cd98f00b204e9800998ecf8427e".data := by decide

example : md5Hex "abc".data = "900150983cd24fb0d6963f7d28e17f72".data := by decide

example : md5Hex "http://x".data = "94831d84bdbc4feeb2ce9108660eada6".data := by
  decide

/-! ### Network, directory and per-file state

The network is an oracle giving the result of the `k`-th
`session.get` call of the session.  `requests` semantics embedded:
`raise_for_status` raises exactly for status codes 400–599; the
content-type header defaults to the empty string.  The local image
directory is a listing of (file name, bytes); `write_bytes` overwrites an
existing name or appends a new one.  `image_dir.glob(f"{hash}.*")` —
with an md5 hex digest the pattern has no wildcard metacharacters other
than the trailing `*`, so a name matches exactly when it starts with
`hash.`; the listing order stands in for the unspecified directory
order, and `existing_images[0]` is the first match in that order. -/

inductive NetResult where
  | transportError
  | ok (status : Nat) (contentType : Str) (body : List Nat)
  deriving DecidableEq

structure Env where
  net : Nat → NetResult

structure FileState where
  content : Str
  dirFiles : List (Str × List Nat)
  netLog : List Str
  processedImages : Nat
  failedDownloads : Nat
  deriving DecidableEq

/-- `final_path.write_bytes(...)`: overwrite or append. -/
def dirWrite (name : Str) (bytes : List Nat) :
    List (Str × List Nat) → List (Str × List Nat)
  | [] => [(name, bytes)]
  | (n, b) :: rest =>
    if n = name then (name, bytes) :: rest else (n, b) :: dirWrite name bytes rest

/-- `list(image_dir.glob(f"{image_hash}.*"))`, as file names. -/
def globMatches (hash : Str) (files : List (Str × List Nat)) : List Str :=
  (files.map Prod.fst).filter (fun n => (hash ++ ['.']).isPrefixOf n)

/-- One download attempt given the network's answer: `none` is a failed
attempt (transport error, `raise_for_status`, non-`image/` content type,
or an invalid suffix making `with_suffix` raise); `some` is the final
file name and the body bytes to write. -/
def attemptResult (url hash : Str) (r : NetResult) : Option (Str × List Nat) :=
  match r with
  | .transportError => none
  | .ok status ct body =>
    if 400 ≤ status ∧ status < 600 then none
    else if ¬ "image/".data.isPrefixOf ct then none
    else
      match withSuffixName hash ('.' :: get_image_extension url (some ct)) with
      | none => none
      | some name => some (name, body)

/-- Record one `session.get` call. -/
def requestLog (url : Str) (s : FileState) : FileState :=
  { s with netLog := url :: s.netLog }

/-- `ImageDownloader.download_image(url, output_path)`: up to `fuel`
attempts (called with `fuel = max_retries`); on the last failure the
failure counter is incremented.  Returns the final file name on
success.  (With `max_retries = 0` Python's loop body never runs and the
function falls through returning `None` with no counter change.) -/
def download_image (env : Env) (url hash : Str) :
    Nat → FileState → Option Str × FileState
  | 0, s => (none, s)
  | fuel + 1, s =>
    let r := env.net s.netLog.length
    let s1 := requestLog url s
    match attemptResult url hash r with
    | some (name, bytes) =>
      (some name, { s1 with dirFiles := dirWrite name bytes s1.dirFiles })
    | none =>
      if fuel = 0 then
        (none, { s1 with failedDownloads := s1.failedDownloads + 1 })
      else download_image env url hash fuel s1

/-- `local_path.relative_to(file_path.parent)` rendered into the new
link: the image directory is `local_images` next to the document. -/
def localRel (name : Str) : Str := "local_images/".data ++ name

/-- The exact markup substring `![alt](url)`. -/
def mkLink (alt url : Str) : Str :=
  '!' :: '[' :: alt ++ ']' :: '(' :: url ++ [')']

/-- The body of the `for alt_text, image_url in image_links` loop for one
reference. -/
def processOneRef (env : Env) (maxRetries : Nat) (s : FileState)
    (ref : Str × Str) : FileState :=
  let hash := md5Hex ref.2
  match globMatches hash s.dirFiles with
  | name :: _ =>
    { s with
        content := pyReplace (mkLink ref.1 ref.2) (mkLink ref.1 (localRel name))
          s.content,
        processedImages := s.processedImages + 1 }
  | [] =>
    match download_image env ref.2 hash maxRetries s with
    | (none, s1) => s1
    | (some name, s1) =>
      { s1 with
          content := pyReplace (mkLink ref.1 ref.2) (mkLink ref.1 (localRel name))
            s1.content,
          processedImages := s1.processedImages + 1 }

def processRefs (env : Env) (maxRetries : Nat) :
    List (Str × Str) → FileState → FileState
  | [], s => s
  | ref :: refs, s => processRefs env maxRetries refs (processOneRef env maxRetries s ref)

/-- `ImageDownloader.process_markdown_file`: find the links; if none, the
file is left untouched (and not counted); otherwise process every link in
order and write the text back.  The returned flag records whether the
file was written (`processed_files` incremented). -/
def process_markdown_file (env : Env) (maxRetries : Nat) (s : FileState) :
    FileState × Bool :=
  let links := findLinks s.content
  if links = [] then (s, false)
  else (processRefs env maxRetries links s, true)

/-- A network oracle from a finite script (further calls fail). -/
def netOf (rs : List NetResult) : Env :=
  ⟨fun k => rs.getD k .transportError⟩

/-- Initial per-file state for a document text and directory listing. -/
def st0 (content : Str) (dir : List (Str × List Nat)) : FileState :=
  { content := content, dirFiles := dir, netLog := [],
    processedImages := 0, failedDownloads := 0 }

/-! ### Claims about `get_image_extension` (C4, C10) -/

/-- Modelled from the spec (§4.2 edge cases): "The extension of the
cached file is decided at download time from the HTTP response's
content-type header if available and recognized (the six-entry map);
otherwise from the URL path's suffix; otherwise defaults to `jpg`."
Written from the spec's words, to be compared with the source's
`get_image_extension`. -/
def extSpec (url : Str) (contentType : Option Str) : Str :=
  let fromUrl :=
    let suf := splitextExt (urlPath url)
    if suf ≠ [] then lowerStr (suf.drop 1) else "jpg".data
  match contentType with
  | some ct => if extMap (lowerStr ct) ≠ [] then extMap (lowerStr ct) else fromUrl
  | none => fromUrl

theorem extMap_empty : extMap [] = [] := by decide

theorem lowerStr_nil : lowerStr [] = [] := rfl

/-- C4: the saved extension follows the precedence content-type map,
then URL suffix, then `jpg`; in particular content type `image/webp`
with a URL ending in `.jpg` gives `webp`. -/
theorem claim4 :
    (∀ url contentType,
      get_image_extension url contentType = extSpec url contentType) ∧
    get_image_extension "http://example.com/a.jpg".data
      (some "image/webp".data) = "webp".data := by
  refine ⟨fun url contentType => ?_, by decide⟩
  cases contentType with
  | none => rfl
  | some ct =>
    by_cases hct : ct = []
    · subst hct
      simp [get_image_extension, extSpec, urlExtFallback, lowerStr_nil,
        extMap_empty]
    · by_cases hm : extMap (lowerStr ct) = [] <;>
        simp [get_image_extension, extSpec, urlExtFallback, hct, hm]

theorem splitextExt_shape (p : Str) :
    splitextExt p = [] ∨ ∃ t, splitextExt p = '.' :: t := by
  unfold splitextExt
  dsimp only
  split_ifs with h1 h2
  · exact Or.inr ⟨_, rfl⟩
  · exact Or.inl rfl
  · exact Or.inl rfl

theorem slash_not_mem_splitextExt (p : Str) : '/' ∉ splitextExt p := by
  intro hmem
  unfold splitextExt at hmem
  dsimp only at hmem
  split_ifs at hmem with h1 h2
  · rcases List.mem_cons.mp hmem with h | h
    · exact absurd h (by decide)
    · have hbase : '/' ∈ (p.reverse.takeWhile (fun c => c ≠ '/')).reverse := by
        have h1' := List.mem_reverse.mp h
        have h2' := List.takeWhile_subset
          (p := fun c => decide (c ≠ '.')) h1'
        exact List.mem_reverse.mpr (by
          simpa using List.mem_reverse.mp (List.mem_reverse.mpr h2'))
      have := List.mem_takeWhile_imp (List.mem_reverse.mp hbase)
      simp at this
  · simp at hmem
  · simp at hmem

theorem extMap_cases (x : Str) :
    extMap x = [] ∨ extMap x = "jpg".data ∨ extMap x = "png".data ∨
      extMap x = "gif".data ∨ extMap x = "webp".data ∨
      extMap x = "svg".data ∨ extMap x = "ico".data := by
  unfold extMap
  split_ifs <;> simp

theorem toLower_eq_slash {c : Char} (h : c.toLower = '/') : c = '/' := by
  unfold Char.toLower at h
  dsimp only at h
  split at h
  · next hcond =>
    exfalso
    obtain ⟨h1, h2⟩ := hcond
    generalize hn : c.toNat = n at h1 h2 h
    interval_cases n <;> exact absurd h (by decide)
  · exact h

theorem slash_not_mem_lowerStr {l : Str} (h : '/' ∉ l) : '/' ∉ lowerStr l := by
  intro hmem
  obtain ⟨x, hx, hlx⟩ := List.mem_map.mp hmem
  exact h (toLower_eq_slash hlx ▸ hx)

theorem slash_not_mem_gie (url : Str) (ct : Option Str) :
    '/' ∉ get_image_extension url ct := by
  have hfall : '/' ∉ urlExtFallback url := by
    unfold urlExtFallback
    dsimp only
    split_ifs with h
    · refine slash_not_mem_lowerStr fun hmem => ?_
      exact slash_not_mem_splitextExt (urlPath url)
        (List.mem_of_mem_drop hmem)
    · decide
  cases ct with
  | none => exact hfall
  | some c =>
    unfold get_image_extension
    dsimp only
    split_ifs with h1 h2
    · rcases extMap_cases (lowerStr c) with h | h | h | h | h | h | h <;>
        rw [h] <;> simp
    · exact hfall
    · exact hfall

/-- Conditions under which the content type contributes no extension
(absent, empty, or unrecognized). -/
def ctMissed : Option Str → Prop
  | none => True
  | some c => extMap (lowerStr c) = []

theorem urlExtFallback_eq_nil (url : Str) :
    urlExtFallback url = [] ↔ splitextExt (urlPath url) = ['.'] := by
  unfold urlExtFallback
  rcases splitextExt_shape (urlPath url) with h | ⟨t, h⟩ <;> rw [h]
  · simp
  · simp only [ne_eq, reduceCtorEq, not_false_iff, if_true, List.drop_one,
      List.tail_cons]
    constructor
    · intro ht
      have : t = [] := by simpa [lowerStr] using ht
      simp [this]
    · intro ht
      have : t = [] := by simpa using ht
      simp [this, lowerStr]

/-- C10 counterexample: for a URL whose path basename ends in a dot and
no usable content type, `get_image_extension` returns the empty string
(so the claimed "always non-empty" fails). -/
theorem claim10_cx :
    get_image_extension "http://example.com/a.".data none = [] := by decide

/-- C10 (amended): `get_image_extension` returns the empty string exactly
when the content type contributes nothing and the URL path's `splitext`
suffix is the bare dot; in every other case the result is non-empty and
`.<ext>` is a suffix `with_suffix` accepts (no `ValueError`). -/
theorem claim10 :
    (∀ url ct, get_image_extension url ct = [] ↔
      (ctMissed ct ∧ splitextExt (urlPath url) = ['.'])) ∧
    (∀ url ct name, name ≠ [] → get_image_extension url ct ≠ [] →
      withSuffixName name ('.' :: get_image_extension url ct) =
        some (name.take (name.length - (pathSuffix name).length) ++
          '.' :: get_image_extension url ct)) := by
  constructor
  · intro url ct
    cases ct with
    | none => simpa [get_image_extension, ctMissed] using urlExtFallback_eq_nil url
    | some c =>
      by_cases hc : c = []
      · subst hc
        simpa [get_image_extension, ctMissed, lowerStr_nil, extMap_empty] using
          urlExtFallback_eq_nil url
      · by_cases hm : extMap (lowerStr c) = []
        · simpa [get_image_extension, ctMissed, hc, hm] using
            urlExtFallback_eq_nil url
        · simp [get_image_extension, ctMissed, hc, hm]
  · intro url ct name hname hext
    have hslash : '/' ∉ get_image_extension url ct := slash_not_mem_gie url ct
    have hnotdot : ¬ ('.' :: get_image_extension url ct = ['.']) := by
      intro hdot
      exact hext (by simpa using congrArg List.tail hdot)
    unfold withSuffixName
    rw [if_neg (by simpa using hslash)]
    rw [if_neg (by
      push_neg
      exact ⟨fun _ => rfl, hnotdot⟩)]
    rw [if_neg hname]

theorem claim10_witness :
    "h".data ≠ [] ∧ get_image_extension "http://x/a.png".data none ≠ [] ∧
      withSuffixName "h".data
        ('.' :: get_image_extension "http://x/a.png".data none) =
        some "h.png".data :=
  ⟨by decide, by decide,
    (claim10.2 "http://x/a.png".data none "h".data (by decide)
      (by decide)).trans (by decide)⟩

/-! ### Claim C3: no remote links means no-op -/

/-- C3: on a document text with no image link matching `![alt](http...)`
(`findLinks` empty — in particular any already-localized document with
only local relative paths), `process_markdown_file` performs zero
downloads and leaves the whole state — document text included —
byte-identical, and the file is not rewritten or counted. -/
theorem claim3 (env : Env) (maxRetries : Nat) (s : FileState)
    (h : findLinks s.content = []) :
    process_markdown_file env maxRetries s = (s, false) := by
  unfold process_markdown_file
  rw [h]
  simp

theorem claim3_witness :
    findLinks "Done: ![a](local_images/x.png)".data = [] ∧
    process_markdown_file (netOf []) 3
      (st0 "Done: ![a](local_images/x.png)".data []) =
      (st0 "Done: ![a](local_images/x.png)".data [], false) :=
  ⟨by decide, claim3 _ _ _ (by decide)⟩

/-! ### Claim C9: non-`image/` content type fails the attempt -/

/-- C9: a response whose content type does not start with `image/` makes
the attempt fail — `attemptResult` is `none`, so no file is written from
it — exactly as for a transport error, and the retry/skip behaviour of
`download_image` depends only on the per-attempt `attemptResult`
outcomes, under which the two are indistinguishable. -/
theorem claim9 :
    (∀ url hash status ct body, ¬ "image/".data.isPrefixOf ct →
      attemptResult url hash (.ok status ct body) = none ∧
      attemptResult url hash .transportError = none) ∧
    (∀ env env' : Env, ∀ url hash,
      (∀ k, attemptResult url hash (env.net k) =
        attemptResult url hash (env'.net k)) →
      ∀ fuel s, download_image env url hash fuel s =
        download_image env' url hash fuel s) := by
  constructor
  · intro url hash status ct body hct
    refine ⟨?_, rfl⟩
    by_cases h4 : 400 ≤ status ∧ status < 600 <;> simp [attemptResult, h4, hct]
  · intro env env' url hash hag fuel
    induction fuel with
    | zero => intro s; rfl
    | succ f ih =>
      intro s
      simp only [download_image]
      rw [hag s.netLog.length]
      rcases attemptResult url hash (env'.net s.netLog.length) with _ | ⟨name, bytes⟩
      · dsimp only
        by_cases hf : f = 0
        · simp [hf]
        · simp [hf, ih]
      · rfl

theorem claim9_witness :
    attemptResult "http://x".data "h".data (.ok 200 "text/html".data []) = none ∧
    download_image (netOf [.ok 200 "text/html".data []])
        "http://x".data "h".data 3 (st0 [] []) =
      download_image (netOf [.transportError])
        "http://x".data "h".data 3 (st0 [] []) :=
  ⟨(claim9.1 "http://x".data "h".data 200 "text/html".data [] (by decide)).1,
   claim9.2 (netOf [.ok 200 "text/html".data []]) (netOf [.transportError])
     "http://x".data "h".data
     (fun k => match k with
       | 0 => by decide
       | _ + 1 => rfl)
     3 (st0 [] [])⟩

/-! ### Behaviour of the download loop and the per-reference step -/

theorem dirWrite_names_mono {n : Str} {fs : List (Str × List Nat)}
    (hmem : n ∈ fs.map Prod.fst) (m : Str) (b : List Nat) :
    n ∈ (dirWrite m b fs).map Prod.fst := by
  induction fs with
  | nil => simp at hmem
  | cons e fs ih =>
    rcases e with ⟨en, eb⟩
    simp only [List.map_cons, List.mem_cons] at hmem
    unfold dirWrite
    split_ifs with he
    · subst he
      rcases hmem with h | h
      · simp [h]
      · simp [h]
    · rcases hmem with h | h
      · simp [h]
      · simp [ih h]

theorem dirWrite_fresh {name : Str} {fs : List (Str × List Nat)}
    (hfresh : name ∉ fs.map Prod.fst) (b : List Nat) :
    dirWrite name b fs = fs ++ [(name, b)] := by
  induction fs with
  | nil => rfl
  | cons e fs ih =>
    rcases e with ⟨en, eb⟩
    simp only [List.map_cons, List.mem_cons, not_or] at hfresh
    unfold dirWrite
    rw [if_neg (by exact fun h => hfresh.1 h.symm)]
    simp [ih hfresh.2]

/-- A download changes only the network log, the directory (monotonically
in names) and the failure counter. -/
theorem download_image_frame (env : Env) (url hash : Str) :
    ∀ fuel s, ∃ k, k ≤ fuel ∧
      (download_image env url hash fuel s).2.netLog =
        List.replicate k url ++ s.netLog ∧
      (download_image env url hash fuel s).2.content = s.content ∧
      (download_image env url hash fuel s).2.processedImages =
        s.processedImages ∧
      ∀ n ∈ s.dirFiles.map Prod.fst,
        n ∈ (download_image env url hash fuel s).2.dirFiles.map Prod.fst := by
  intro fuel
  induction fuel with
  | zero => exact fun s => ⟨0, by simp [download_image]⟩
  | succ f ih =>
    intro s
    simp only [download_image]
    rcases attemptResult url hash (env.net s.netLog.length) with _ | ⟨name, bytes⟩
    · dsimp only
      by_cases hf : f = 0
      · exact ⟨1, by simp [hf, requestLog]⟩
      · rw [if_neg hf]
        obtain ⟨k, hk, hnet, hcont, himg, hdir⟩ := ih (requestLog url s)
        refine ⟨k + 1, by omega, ?_, by simpa [requestLog] using hcont,
          by simpa [requestLog] using himg, ?_⟩
        · rw [hnet]
          simp [requestLog, List.replicate_succ']
        · intro n hn
          exact hdir n (by simpa [requestLog] using hn)
    · refine ⟨1, by omega, by simp [requestLog], by simp [requestLog],
        by simp [requestLog], fun n hn => ?_⟩
      simpa [requestLog] using dirWrite_names_mono hn name bytes

/-- When every attempt's network answer fails, `download_image` makes
exactly `fuel` requests, leaves everything else unchanged and increments
the failure counter by exactly one. -/
theorem download_image_fail (env : Env) (url hash : Str) :
    ∀ fuel s, 1 ≤ fuel →
      (∀ i < fuel, attemptResult url hash (env.net (s.netLog.length + i)) = none) →
      download_image env url hash fuel s =
        (none, { s with netLog := List.replicate fuel url ++ s.netLog,
                        failedDownloads := s.failedDownloads + 1 }) := by
  intro fuel
  induction fuel with
  | zero => omega
  | succ f ih =>
    intro s _ hfail
    simp only [download_image]
    rw [show env.net s.netLog.length = env.net (s.netLog.length + 0) by rfl,
      hfail 0 (by omega)]
    dsimp only
    by_cases hf : f = 0
    · subst hf
      simp [requestLog]
    · rw [if_neg hf]
      rw [ih (requestLog url s) (by omega) (fun i hi => by
        have := hfail (i + 1) (by omega)
        simpa [requestLog, Nat.add_assoc, Nat.add_comm 1 i] using this)]
      simp [requestLog, List.replicate_succ']

/-- When the first attempt succeeds, `download_image` makes exactly one
request and writes the file. -/
theorem download_image_firstSuccess (env : Env) (url hash name : Str)
    (bytes : List Nat) (fuel : Nat) (s : FileState) (hfuel : 1 ≤ fuel)
    (hok : attemptResult url hash (env.net s.netLog.length) = some (name, bytes)) :
    download_image env url hash fuel s =
      (some name, { s with netLog := url :: s.netLog,
                           dirFiles := dirWrite name bytes s.dirFiles }) := by
  cases fuel with
  | zero => omega
  | succ f =>
    simp only [download_image, hok]
    simp [requestLog]

/-! ### Facts about the md5 hex digest used as cache key -/

theorem mem_md5Hex_hexChars {c : Char} {s : Str} (h : c ∈ md5Hex s) :
    c ∈ hexChars := by
  have hgd : ∀ i, hexChars.getD i '0' ∈ hexChars := by
    intro i
    rw [List.getD_eq_getElem?_getD]
    rcases hi : hexChars[i]? with _ | x
    · simp [Option.getD]
      decide
    · have := List.getElem?_mem hi
      simpa using this
  unfold md5Hex at h
  obtain ⟨b, hb, hc⟩ := List.mem_flatMap.mp h
  unfold byteHex at hc
  rcases List.mem_cons.mp hc with h1 | h1
  · exact h1 ▸ hgd _
  · rcases List.mem_cons.mp h1 with h2 | h2
    · exact h2 ▸ hgd _
    · simp at h2

theorem dot_not_mem_md5Hex (s : Str) : '.' ∉ md5Hex s :=
  fun h => absurd (mem_md5Hex_hexChars h) (by decide)

theorem length_flatMap_byteHex (l : List Nat) :
    (l.flatMap byteHex).length = 2 * l.length := by
  induction l with
  | nil => rfl
  | cons b l ih =>
    simp only [List.flatMap_cons, List.length_append, ih, byteHex,
      List.length_cons, List.length_nil]
    omega

theorem md5Digest_length (msg : List Nat) : (md5Digest msg).length = 16 := by
  unfold md5Digest
  rcases md5Chunks (mdPad msg) (1732584193, 4023233417, 2562383102, 271733878)
    with ⟨a, b, c, d⟩
  simp

theorem md5Hex_length (s : Str) : (md5Hex s).length = 32 := by
  unfold md5Hex
  rw [length_flatMap_byteHex, md5Digest_length]

theorem md5Hex_ne_nil (s : Str) : md5Hex s ≠ [] := by
  intro h
  have := md5Hex_length s
  rw [h] at this
  simp at this

theorem pathSuffix_of_no_dot {name : Str} (h : '.' ∉ name) :
    pathSuffix name = [] := by
  unfold pathSuffix
  rw [if_neg h]

/-! ### The per-reference step -/

theorem globMatches_ne_nil {hash f : Str} {fs : List (Str × List Nat)}
    (hmem : f ∈ fs.map Prod.fst) (hpref : (hash ++ ['.']).isPrefixOf f) :
    globMatches hash fs ≠ [] := by
  intro hnil
  have : f ∈ (fs.map Prod.fst).filter
      (fun n => (hash ++ ['.']).isPrefixOf n) :=
    List.mem_filter.mpr ⟨hmem, by simpa using hpref⟩
  rw [show (fs.map Prod.fst).filter (fun n => (hash ++ ['.']).isPrefixOf n) =
      globMatches hash fs from rfl, hnil] at this
  simp at this

theorem processOneRef_hit (env : Env) (maxRetries : Nat) {s : FileState}
    {alt u name : Str} {rest : List Str}
    (hglob : globMatches (md5Hex u) s.dirFiles = name :: rest) :
    processOneRef env maxRetries s (alt, u) =
      { s with
          content := pyReplace (mkLink alt u) (mkLink alt (localRel name))
            s.content,
          processedImages := s.processedImages + 1 } := by
  unfold processOneRef
  dsimp only
  rw [hglob]

/-- A successful response parametrised by its pieces yields the attempt
result `hash.ext` with the body bytes. -/
theorem attemptResult_ok {url : Str} {status : Nat} {ct : Str}
    {body : List Nat} (hst : status < 400)
    (hct : "image/".data.isPrefixOf ct) (hmap : extMap (lowerStr ct) ≠ []) :
    attemptResult url (md5Hex url) (.ok status ct body) =
      some (md5Hex url ++ '.' :: extMap (lowerStr ct), body) := by
  have hctne : ct ≠ [] := by
    intro h
    rw [h] at hct
    simp [List.isPrefixOf] at hct
  have hgie : get_image_extension url (some ct) = extMap (lowerStr ct) := by
    unfold get_image_extension
    dsimp only
    rw [if_pos hctne, if_pos hmap]
  have hslash : '/' ∉ extMap (lowerStr ct) := by
    rcases extMap_cases (lowerStr ct) with h | h | h | h | h | h | h <;>
      rw [h] <;> simp <;> try exact absurd h hmap
  have hsuffix : withSuffixName (md5Hex url) ('.' :: extMap (lowerStr ct)) =
      some (md5Hex url ++ '.' :: extMap (lowerStr ct)) := by
    unfold withSuffixName
    rw [if_neg (by simpa using hslash)]
    rw [if_neg (by
      push_neg
      refine ⟨fun _ => rfl, fun hdot => ?_⟩
      exact hmap (by simpa using congrArg List.tail hdot))]
    rw [if_neg (md5Hex_ne_nil url)]
    rw [pathSuffix_of_no_dot (dot_not_mem_md5Hex url)]
    simp
  unfold attemptResult
  dsimp only
  rw [if_neg (by omega), if_neg (by simpa using hct), hgie, hsuffix]

theorem name_fresh_of_miss {u ext : Str} {fs : List (Str × List Nat)}
    (hmiss : globMatches (md5Hex u) fs = []) :
    (md5Hex u ++ '.' :: ext) ∉ fs.map Prod.fst := by
  intro hmem
  exact globMatches_ne_nil hmem
    (by simpa [List.isPrefixOf_iff_prefix] using
      ⟨ext, by simp⟩) hmiss

/-- Cache miss plus a good first response: the step downloads once,
appends the file, replaces the markup and counts the image. -/
theorem processOneRef_success (env : Env) (maxRetries : Nat) {s : FileState}
    {alt u ct : Str} {status : Nat} {body : List Nat}
    (hfuel : 1 ≤ maxRetries)
    (hmiss : globMatches (md5Hex u) s.dirFiles = [])
    (hnet : env.net s.netLog.length = .ok status ct body)
    (hst : status < 400) (hct : "image/".data.isPrefixOf ct)
    (hmap : extMap (lowerStr ct) ≠ []) :
    processOneRef env maxRetries s (alt, u) =
      { s with
          content := pyReplace (mkLink alt u)
            (mkLink alt (localRel (md5Hex u ++ '.' :: extMap (lowerStr ct))))
            s.content,
          dirFiles := s.dirFiles ++ [(md5Hex u ++ '.' :: extMap (lowerStr ct), body)],
          netLog := u :: s.netLog,
          processedImages := s.processedImages + 1 } := by
  unfold processOneRef
  dsimp only
  rw [hmiss]
  rw [download_image_firstSuccess env u (md5Hex u) _ body maxRetries s hfuel
    (by rw [hnet]; exact attemptResult_ok hst hct hmap)]
  rw [dirWrite_fresh (name_fresh_of_miss hmiss) body]

/-- Each step's new network-log entries all equal the step's own URL,
and directory names are preserved. -/
theorem processOneRef_frame (env : Env) (maxRetries : Nat) (s : FileState)
    (r : Str × Str) :
    ∃ k, (processOneRef env maxRetries s r).netLog =
        List.replicate k r.2 ++ s.netLog ∧
      ∀ f ∈ s.dirFiles.map Prod.fst,
        f ∈ (processOneRef env maxRetries s r).dirFiles.map Prod.fst := by
  unfold processOneRef
  dsimp only
  rcases hglob : globMatches (md5Hex r.2) s.dirFiles with _ | ⟨name, rest⟩
  · obtain ⟨k, _, hnet, _, _, hdir⟩ :=
      download_image_frame env r.2 (md5Hex r.2) maxRetries s
    rcases hdl : download_image env r.2 (md5Hex r.2) maxRetries s with ⟨res, s1⟩
    rw [hdl] at hnet hdir
    rcases res with _ | name
    · exact ⟨k, hnet, hdir⟩
    · exact ⟨k, hnet, hdir⟩
  · exact ⟨0, by simp, fun f hf => hf⟩

/-! ### Claim C1: cache hit short-circuits the network -/

/-- C1: if, at the start of processing, the local image directory already
holds a file whose name matches `<md5(u)>.*`, then (i) no network request
for `u` is ever issued while processing the reference list — every
logged request either predates processing or is for a different URL —
and (ii) a reference to `u` is resolved by reusing the first matching
existing file as the local path, with no state change beyond the text
replacement and the image counter. -/
theorem claim1 (env : Env) (maxRetries : Nat) :
    (∀ s u refs,
      (∃ f ∈ s.dirFiles.map Prod.fst, (md5Hex u ++ ['.']).isPrefixOf f) →
      ∀ x ∈ (processRefs env maxRetries refs s).netLog,
        x ∈ s.netLog ∨ x ≠ u) ∧
    (∀ s alt u name rest, globMatches (md5Hex u) s.dirFiles = name :: rest →
      processOneRef env maxRetries s (alt, u) =
        { s with
            content := pyReplace (mkLink alt u) (mkLink alt (localRel name))
              s.content,
            processedImages := s.processedImages + 1 }) := by
  constructor
  · intro s u refs
    induction refs generalizing s with
    | nil => exact fun _ x hx => Or.inl hx
    | cons r rs ih =>
      rintro ⟨f, hf, hpref⟩ x hx
      rcases r with ⟨alt, v⟩
      by_cases hv : v = u
      · subst hv
        rcases hg : globMatches (md5Hex v) s.dirFiles with _ | ⟨name, rest0⟩
        · exact absurd hg (globMatches_ne_nil hf hpref)
        · rw [show processRefs env maxRetries ((alt, v) :: rs) s =
              processRefs env maxRetries rs
                (processOneRef env maxRetries s (alt, v)) from rfl,
            processOneRef_hit env maxRetries hg] at hx
          exact ih { s with
              content := pyReplace (mkLink alt v) (mkLink alt (localRel name))
                s.content,
              processedImages := s.processedImages + 1 }
            ⟨f, hf, hpref⟩ x hx
      · obtain ⟨k, hnet, hdir⟩ := processOneRef_frame env maxRetries s (alt, v)
        rcases ih (processOneRef env maxRetries s (alt, v))
          ⟨f, hdir f hf, hpref⟩ x hx with hmem | hne
        · rw [hnet] at hmem
          rcases List.mem_append.mp hmem with hrep | hold
          · exact Or.inr (by
              have := List.eq_of_mem_replicate hrep
              simpa [this] using hv)
          · exact Or.inl hold
        · exact Or.inr hne
  · intro s alt u name rest hglob
    exact processOneRef_hit env maxRetries hglob

/-! ### Claim C2 (amended): an exhausted download is a pure skip -/

/-- C2 (amended): a reference whose download fails on all `maxRetries`
attempts is skipped: its processing step performs no replacement — the
document text, directory and image counter are untouched at that step —
and increments `failed_downloads` by exactly 1 (logging the `maxRetries`
requests).  The original markup therefore survives unless a different
reference's textual replacement overlaps an occurrence of it, which the
counterexample shows can happen. -/
theorem claim2 (env : Env) (maxRetries : Nat) (s : FileState) (alt url : Str)
    (hfuel : 1 ≤ maxRetries)
    (hmiss : globMatches (md5Hex url) s.dirFiles = [])
    (hfail : ∀ i < maxRetries,
      attemptResult url (md5Hex url) (env.net (s.netLog.length + i)) = none) :
    processOneRef env maxRetries s (alt, url) =
      { s with netLog := List.replicate maxRetries url ++ s.netLog,
               failedDownloads := s.failedDownloads + 1 } := by
  unfold processOneRef
  dsimp only
  rw [hmiss, download_image_fail env url (md5Hex url) maxRetries s hfuel hfail]

/-- C2 counterexample: in the document
`![a](http://x) ![b](http://y![a](http://x)` the second reference's
markup textually overlaps an occurrence of the first's.  When the first
resolves and the second fails all retries, the failure counter does rise
by exactly 1, but the failed reference's original markup
`![b](http://y![a](http://x)` is no longer present in the output — the
claim's "left unmodified" part fails. -/
theorem claim2_cx :
    findLinks "![a](http://x) ![b](http://y![a](http://x)".data =
      [("a".data, "http://x".data), ("b".data, "http://y![a](http://x".data)] ∧
    (mkLink "b".data "http://y![a](http://x".data <:+:
      "![a](http://x) ![b](http://y![a](http://x)".data) ∧
    (process_markdown_file
        (netOf [.ok 200 "image/png".data [1], .transportError,
          .transportError, .transportError]) 3
        (st0 "![a](http://x) ![b](http://y![a](http://x)".data [])).1.failedDownloads
      = 1 ∧
    ¬ (mkLink "b".data "http://y![a](http://x".data <:+:
      (process_markdown_file
        (netOf [.ok 200 "image/png".data [1], .transportError,
          .transportError, .transportError]) 3
        (st0 "![a](http://x) ![b](http://y![a](http://x)".data [])).1.content) := by
  refine ⟨by decide, by decide, by decide, by decide⟩

theorem claim2_witness :
    processOneRef (netOf []) 3 (st0 "![x](http://fail)".data [])
        ("x".data, "http://fail".data) =
      { st0 "![x](http://fail)".data [] with
          netLog := List.replicate 3 "http://fail".data,
          failedDownloads := 1 } := by
  have h := claim2 (netOf []) 3 (st0 "![x](http://fail)".data [])
    "x".data "http://fail".data (by omega) (by decide)
    (fun i hi => by interval_cases i <;> decide)
  simpa using h

theorem claim1_witness :
    ("http://other".data ∈
      (processRefs (netOf []) 3
        [("a".data, "http://img".data), ("b".data, "http://other".data)]
        (st0 "![a](http://img) ![b](http://other)".data
          [("73a6f1a24db522646ae6608fdf5cf9ee.png".data, [])])).netLog) ∧
    ("http://other".data ∈
        (st0 "![a](http://img) ![b](http://other)".data
          [("73a6f1a24db522646ae6608fdf5cf9ee.png".data, [])]).netLog ∨
      "http://other".data ≠ "http://img".data) ∧
    processOneRef (netOf []) 3
        (st0 "![a](http://img) ![b](http://other)".data
          [("73a6f1a24db522646ae6608fdf5cf9ee.png".data, [])])
        ("a".data, "http://img".data) =
      { st0 "![a](http://img) ![b](http://other)".data
          [("73a6f1a24db522646ae6608fdf5cf9ee.png".data, [])] with
          content :=
            "![a](local_images/73a6f1a24db522646ae6608fdf5cf9ee.png) ![b](http://other)".data,
          processedImages := 1 } :=
  ⟨by decide,
   (claim1 (netOf []) 3).1
     (st0 "![a](http://img) ![b](http://other)".data
       [("73a6f1a24db522646ae6608fdf5cf9ee.png".data, [])])
     "http://img".data
     [("a".data, "http://img".data), ("b".data, "http://other".data)]
     ⟨"73a6f1a24db522646ae6608fdf5cf9ee.png".data, by decide, by decide⟩
     "http://other".data (by decide),
   ((claim1 (netOf []) 3).2
     (st0 "![a](http://img) ![b](http://other)".data
       [("73a6f1a24db522646ae6608fdf5cf9ee.png".data, [])])
     "a".data "http://img".data
     "73a6f1a24db522646ae6608fdf5cf9ee.png".data [] (by decide)).trans
     (by decide)⟩

/-! ### Claim C5: repeated identical references -/

/-- After a successful first resolution, every further identical
reference is a cache hit: no request, no directory change, only the
(idempotent after the first pass) replacement and the image counter. -/
theorem processRefs_hits (env : Env) (maxRetries : Nat) (alt url name : Str)
    (rest : List Str) :
    ∀ k s, globMatches (md5Hex url) s.dirFiles = name :: rest →
      processRefs env maxRetries (List.replicate k (alt, url)) s =
        { s with
            content := (fun c => pyReplace (mkLink alt url)
              (mkLink alt (localRel name)) c)^[k] s.content,
            processedImages := s.processedImages + k } := by
  intro k
  induction k with
  | zero => intro s _; simp [processRefs]
  | succ k ih =>
    intro s hglob
    rw [List.replicate_succ]
    rw [show processRefs env maxRetries
        ((alt, url) :: List.replicate k (alt, url)) s =
        processRefs env maxRetries (List.replicate k (alt, url))
          (processOneRef env maxRetries s (alt, url)) from rfl]
    rw [processOneRef_hit env maxRetries hglob]
    rw [ih _ (by simpa using hglob)]
    simp only [Function.iterate_succ_apply]
    congr 1
    omega

/-- C5: when the same `(alt, url)` reference occurs `k + 1` times and the
first processing succeeds (cache miss, then a good response), every
occurrence is rewritten with the same local relative path — each pass
re-applies the same textual replacement — while exactly one network
request is made for the URL: every later iteration is a cache hit that
adds nothing to the network log or the directory. -/
theorem claim5 (env : Env) (maxRetries : Nat) (s : FileState)
    (alt url ct : Str) (status : Nat) (body : List Nat) (k : Nat)
    (hfuel : 1 ≤ maxRetries)
    (hmiss : globMatches (md5Hex url) s.dirFiles = [])
    (hnet : env.net s.netLog.length = .ok status ct body)
    (hst : status < 400) (hct : "image/".data.isPrefixOf ct)
    (hmap : extMap (lowerStr ct) ≠ []) :
    processRefs env maxRetries (List.replicate (k + 1) (alt, url)) s =
      { s with
          content := (fun c => pyReplace (mkLink alt url)
            (mkLink alt (localRel (md5Hex url ++ '.' :: extMap (lowerStr ct))))
            c)^[k + 1] s.content,
          dirFiles :=
            s.dirFiles ++ [(md5Hex url ++ '.' :: extMap (lowerStr ct), body)],
          netLog := url :: s.netLog,
          processedImages := s.processedImages + (k + 1) } := by
  rw [List.replicate_succ]
  rw [show processRefs env maxRetries
      ((alt, url) :: List.replicate k (alt, url)) s =
      processRefs env maxRetries (List.replicate k (alt, url))
        (processOneRef env maxRetries s (alt, url)) from rfl]
  rw [processOneRef_success env maxRetries hfuel hmiss hnet hst hct hmap]
  rw [processRefs_hits env maxRetries alt url
    (md5Hex url ++ '.' :: extMap (lowerStr ct)) [] k _ (by
      unfold globMatches
      rw [List.map_append, List.filter_append]
      rw [show (s.dirFiles.map Prod.fst).filter
          (fun n => (md5Hex url ++ ['.']).isPrefixOf n) = [] from hmiss]
      simp [List.isPrefixOf_iff_prefix])]
  simp only [Function.iterate_succ_apply]
  congr 1
  omega

theorem claim5_witness :
    processRefs (netOf [.ok 200 "image/jpeg".data [3]]) 3
        (List.replicate 2 ("logo".data, "http://e/a.png".data))
        (st0 "![logo](http://e/a.png) mid ![logo](http://e/a.png)".data []) =
      { content :=
          "![logo](local_images/0495a1642be58419e104e7bf5792accc.jpg) mid ![logo](local_images/0495a1642be58419e104e7bf5792accc.jpg)".data,
        dirFiles := [("0495a1642be58419e104e7bf5792accc.jpg".data, [3])],
        netLog := ["http://e/a.png".data],
        processedImages := 2,
        failedDownloads := 0 } :=
  (claim5 (netOf [.ok 200 "image/jpeg".data [3]]) 3
    (st0 "![logo](http://e/a.png) mid ![logo](http://e/a.png)".data [])
    "logo".data "http://e/a.png".data "image/jpeg".data 200 [3] 1
    (by omega) (by decide) (by decide) (by omega) (by decide)
    (by decide)).trans (by decide)

/-! ### Filesystem, working copy and orchestration

Paths are lists of components.  The filesystem is an association list
from paths to file data (documents as text, images as bytes); `fsWrite`
overwrites in place or appends, directories are implicit.
`shutil.copytree` duplicates every file strictly under the original root
at the corresponding path under the working root; a failed copy
(modelled by the `copyOk` flag) raises, leaving the filesystem
unchanged.  `process_directory` catches every exception itself, so
`main` — once the user confirms — always returns normally and the
process exits 0; the non-zero exits (`KeyboardInterrupt`, exceptions
escaping `main`) are outside the modelled behaviours.  `rglob("*.md")`
yields the files under the working root whose last component ends in
`.md`, in listing order. -/

abbrev FPath := List Str

inductive FData where
  | doc (text : Str)
  | img (bytes : List Nat)
  deriving DecidableEq

abbrev FS := List (FPath × FData)

def fsGet (fs : FS) (p : FPath) : Option FData :=
  (fs.find? (fun e => decide (e.1 = p))).map Prod.snd

def fsWrite (p : FPath) (d : FData) : FS → FS
  | [] => [(p, d)]
  | (q, e) :: fs => if q = p then (p, d) :: fs else (q, e) :: fsWrite p d fs

/-- `p` lies strictly below the directory `root`. -/
def underDir (root p : FPath) : Prop := root <+: p ∧ root.length < p.length

instance (root p : FPath) : Decidable (underDir root p) := by
  unfold underDir
  infer_instance

def retarget (origRoot workRoot p : FPath) : FPath :=
  workRoot ++ p.drop origRoot.length

/-- `shutil.copytree(self.base_dir, working_dir)`. -/
def copyTree (origRoot workRoot : FPath) (fs : FS) : FS :=
  fs ++ (fs.filter (fun e => decide (underDir origRoot e.1))).map
    (fun e => (retarget origRoot workRoot e.1, e.2))

/-- `ImageDownloader.create_working_copy`; `error` is the re-raised
copy failure. -/
def create_working_copy (copyOk : Bool) (origRoot workRoot : FPath)
    (fs : FS) : Except Unit FS :=
  if copyOk then .ok (copyTree origRoot workRoot fs) else .error ()

def imgDirOf (p : FPath) : FPath := p.dropLast ++ ["local_images".data]

/-- The listing of the `local_images` directory next to a document. -/
def imgEntries (fs : FS) (d : FPath) : List (Str × List Nat) :=
  fs.filterMap (fun e =>
    match e.2, e.1.getLast? with
    | .img b, some nm => if e.1.dropLast = d then some (nm, b) else none
    | _, _ => none)

def writeImages (d : FPath) (files : List (Str × List Nat)) (fs : FS) : FS :=
  files.foldl (fun acc nb => fsWrite (d ++ [nb.1]) (.img nb.2) acc) fs

structure Session where
  netLog : List Str
  processedFiles : Nat
  processedImages : Nat
  failedDownloads : Nat
  deriving DecidableEq

def session0 : Session := ⟨[], 0, 0, 0⟩

/-- `process_markdown_file` lifted to the filesystem: read the document,
process its links against the sibling `local_images` directory, write
the text and the directory back.  A missing or non-document file is the
caught-and-logged per-file error: the file is skipped. -/
def processFileFS (env : Env) (maxRetries : Nat) (acc : FS × Session)
    (p : FPath) : FS × Session :=
  match fsGet acc.1 p with
  | some (.doc text) =>
    let links := findLinks text
    if links = [] then acc
    else
      let d := imgDirOf p
      let s1 := processRefs env maxRetries links
        { content := text, dirFiles := imgEntries acc.1 d,
          netLog := acc.2.netLog, processedImages := acc.2.processedImages,
          failedDownloads := acc.2.failedDownloads }
      (writeImages d s1.dirFiles (fsWrite p (.doc s1.content) acc.1),
       { netLog := s1.netLog, processedFiles := acc.2.processedFiles + 1,
         processedImages := s1.processedImages,
         failedDownloads := s1.failedDownloads })
  | _ => acc

/-- `list(self.base_dir.rglob("*.md"))` over the association list. -/
def mdFilesUnder (root : FPath) (fs : FS) : List FPath :=
  (fs.filter (fun e =>
    decide (underDir root e.1) &&
    (match e.2 with | .doc _ => true | _ => false) &&
    (match e.1.getLast? with
     | some nm => ".md".data.isSuffixOf nm
     | none => false))).map Prod.fst

/-- `ImageDownloader.process_directory`: the copy failure is caught by
the method's catch-all `except`, which reports and returns normally. -/
def process_directory (env : Env) (maxRetries : Nat) (copyOk : Bool)
    (origRoot workRoot : FPath) (fs : FS) : FS × Session :=
  match create_working_copy copyOk origRoot workRoot fs with
  | .error _ => (fs, session0)
  | .ok fs1 =>
    (mdFilesUnder workRoot fs1).foldl (processFileFS env maxRetries)
      (fs1, session0)

/-- `main` after the confirmation prompt, returning the final filesystem,
session counters and the process exit code. -/
def mainRun (confirmed copyOk : Bool) (env : Env) (maxRetries : Nat)
    (origRoot workRoot : FPath) (fs : FS) : FS × Session × Nat :=
  if confirmed then
    let r := process_directory env maxRetries copyOk origRoot workRoot fs
    (r.1, r.2, 0)
  else (fs, session0, 0)

/-! ### Claim C6: working-copy failure -/

/-- C6 (amended): if working-copy creation fails, the run refuses to
proceed — no scanning or document processing happens, the filesystem is
untouched and the session counters stay zero — but the process exits
with code 0, not non-zero: `process_directory` catches the re-raised
exception and returns normally, so `main`'s failure exits are never
reached. -/
theorem claim6 (env : Env) (maxRetries : Nat) (origRoot workRoot : FPath)
    (fs : FS) :
    mainRun true false env maxRetries origRoot workRoot fs =
      (fs, session0, 0) := rfl

/-- C6 counterexample: a concrete failing-copy run exits with code 0
although the claim demands a non-zero exit code (the refusal to proceed
itself does hold: nothing is processed). -/
theorem claim6_cx :
    (mainRun true false (netOf []) 3 ["docs".data]
      ["docs_processed_20240101".data]
      [(["docs".data, "a.md".data], .doc "![a](http://x/a.png)".data)]).2.2
      = 0 ∧
    (mainRun true false (netOf []) 3 ["docs".data]
      ["docs_processed_20240101".data]
      [(["docs".data, "a.md".data], .doc "![a](http://x/a.png)".data)]).2.1
      = session0 ∧
    (mainRun true false (netOf []) 3 ["docs".data]
      ["docs_processed_20240101".data]
      [(["docs".data, "a.md".data], .doc "![a](http://x/a.png)".data)]).1
      = [(["docs".data, "a.md".data], .doc "![a](http://x/a.png)".data)] := by
  refine ⟨rfl, rfl, rfl⟩

/-! ### Claim C8: the original directory is never mutated -/

theorem fsGet_fsWrite_ne {p q : FPath} (hne : q ≠ p) (d : FData) (fs : FS) :
    fsGet (fsWrite p d fs) q = fsGet fs q := by
  induction fs with
  | nil =>
    unfold fsWrite fsGet
    rw [List.find?_cons_of_neg _ (by simpa using Ne.symm hne)]
  | cons e fs ih =>
    rcases e with ⟨r, dr⟩
    unfold fsWrite
    split_ifs with hr
    · subst hr
      unfold fsGet
      rw [List.find?_cons_of_neg _ (by simpa using Ne.symm hne),
        List.find?_cons_of_neg _ (by simpa using Ne.symm hne)]
    · unfold fsGet at ih ⊢
      by_cases hrq : r = q
      · subst hrq
        rw [List.find?_cons_of_pos _ (by simp),
          List.find?_cons_of_pos _ (by simp)]
      · rw [List.find?_cons_of_neg _ (by simpa using hrq),
          List.find?_cons_of_neg _ (by simpa using hrq)]
        exact ih

theorem fsGet_append_right {fs news : FS} {q : FPath}
    (hnew : ∀ e ∈ news, e.1 ≠ q) :
    fsGet (fs ++ news) q = fsGet fs q := by
  induction fs with
  | nil =>
    simp only [List.nil_append]
    unfold fsGet
    have hnone : news.find? (fun e => decide (e.1 = q)) = none := by
      apply List.find?_eq_none.mpr
      intro e he
      simpa using hnew e he
    rw [hnone]
    rfl
  | cons e fs ih =>
    rcases e with ⟨r, dr⟩
    unfold fsGet at ih ⊢
    simp only [List.cons_append]
    by_cases hrq : r = q
    · subst hrq
      rw [List.find?_cons_of_pos _ (by simp),
        List.find?_cons_of_pos _ (by simp)]
    · rw [List.find?_cons_of_neg _ (by simpa using hrq),
        List.find?_cons_of_neg _ (by simpa using hrq)]
      exact ih

theorem fsGet_writeImages_ne {d : FPath} {q : FPath}
    (hq : ∀ nm : Str, q ≠ d ++ [nm]) (files : List (Str × List Nat)) :
    ∀ fs, fsGet (writeImages d files fs) q = fsGet fs q := by
  induction files with
  | nil => intro fs; rfl
  | cons nb files ih =>
    intro fs
    unfold writeImages at ih ⊢
    simp only [List.foldl_cons]
    rw [ih, fsGet_fsWrite_ne (hq nb.1)]

theorem underDir_decomp {root p : FPath} (h : underDir root p) :
    ∃ r, r ≠ [] ∧ p = root ++ r := by
  obtain ⟨r, hr⟩ := h.1
  refine ⟨r, ?_, hr.symm⟩
  intro hnil
  subst hnil
  have := h.2
  rw [← hr] at this
  simp at this

theorem processFileFS_frame (env : Env) (maxRetries : Nat) {workRoot : FPath}
    (acc : FS × Session) {p' : FPath} (hp' : underDir workRoot p')
    {q : FPath} (hq : ¬ workRoot <+: q) :
    fsGet (processFileFS env maxRetries acc p').1 q = fsGet acc.1 q := by
  have hqp : q ≠ p' := by
    intro hqq
    subst hqq
    exact hq hp'.1
  obtain ⟨r, hrne, hr⟩ := underDir_decomp hp'
  have himg : ∀ nm : Str, q ≠ imgDirOf p' ++ [nm] := by
    intro nm hqeq
    apply hq
    rw [hqeq, imgDirOf, hr, List.dropLast_append_of_ne_nil _ hrne,
      List.append_assoc, List.append_assoc]
    exact List.prefix_append _ _
  unfold processFileFS
  rcases hget : fsGet acc.1 p' with _ | d
  · rfl
  · rcases d with text | bytes
    · dsimp only
      split_ifs with hlinks
      · rfl
      · dsimp only
        rw [fsGet_writeImages_ne himg, fsGet_fsWrite_ne hqp]
    · rfl

theorem processFilesFold_frame (env : Env) (maxRetries : Nat)
    {workRoot : FPath} (ps : List FPath)
    (hps : ∀ p' ∈ ps, underDir workRoot p') {q : FPath}
    (hq : ¬ workRoot <+: q) :
    ∀ acc, fsGet ((ps.foldl (processFileFS env maxRetries) acc)).1 q =
      fsGet acc.1 q := by
  induction ps with
  | nil => intro acc; rfl
  | cons p' ps ih =>
    intro acc
    simp only [List.foldl_cons]
    rw [ih (fun x hx => hps x (List.mem_cons_of_mem _ hx)),
      processFileFS_frame env maxRetries acc
        (hps p' (List.mem_cons_self _ _)) hq]

theorem mem_mdFilesUnder {root : FPath} {fs : FS} {p' : FPath}
    (h : p' ∈ mdFilesUnder root fs) : underDir root p' := by
  unfold mdFilesUnder at h
  obtain ⟨e, he, hfst⟩ := List.mem_map.mp h
  have := List.mem_filter.mp he
  have hcond := this.2
  simp only [Bool.and_eq_true, decide_eq_true_eq] at hcond
  exact hfst ▸ hcond.1.1

/-- C8: the original target directory is never mutated: whatever the
outcome of the confirmation, the copy, the downloads and the rewriting,
every file under the original root `parent/<name>` is byte-identical
before and after the run — all writes land under the working copy
`parent/<name>_processed_<timestamp>`, whose root differs from the
original's. -/
theorem claim8 (confirmed copyOk : Bool) (env : Env) (maxRetries : Nat)
    (parent : FPath) (nm ts : Str) (fs : FS) (p : FPath)
    (hp : underDir (parent ++ [nm]) p) :
    fsGet (mainRun confirmed copyOk env maxRetries (parent ++ [nm])
      (parent ++ [nm ++ "_processed_".data ++ ts]) fs).1 p = fsGet fs p := by
  have hnw : ¬ (parent ++ [nm ++ "_processed_".data ++ ts]) <+: p := by
    intro hpre
    have h1 : (parent ++ [nm]) <+: p := hp.1
    have hlen : (parent ++ [nm]).length =
        (parent ++ [nm ++ "_processed_".data ++ ts]).length := by simp
    have heq : parent ++ [nm] = parent ++ [nm ++ "_processed_".data ++ ts] := by
      rcases List.prefix_or_prefix_of_prefix h1 hpre with h | h
      · exact h.eq_of_length hlen
      · exact (h.eq_of_length hlen.symm).symm
    have hnm : nm = nm ++ "_processed_".data ++ ts := by
      have := List.append_cancel_left heq
      simpa using this
    have := congrArg List.length hnm
    simp at this
  cases confirmed with
  | false => rfl
  | true =>
    unfold mainRun
    rw [if_pos rfl]
    unfold process_directory create_working_copy
    cases copyOk with
    | false => rfl
    | true =>
      rw [if_pos rfl]
      dsimp only
      rw [processFilesFold_frame env maxRetries _
        (fun x hx => mem_mdFilesUnder hx) hnw]
      unfold copyTree
      apply fsGet_append_right
      intro e he hep
      apply hnw
      obtain ⟨e0, he0, hre⟩ := List.mem_map.mp he
      rw [← hep, ← hre]
      unfold retarget
      exact ⟨e0.1.drop (parent ++ [nm]).length, rfl⟩

theorem claim8_witness :
    underDir ([] ++ ["docs".data]) ["docs".data, "a.md".data] ∧
    fsGet (mainRun true true (netOf [.ok 200 "image/png".data [1]]) 3
        ([] ++ ["docs".data])
        ([] ++ ["docs".data ++ "_processed_".data ++ "20240101".data])
        [(["docs".data, "a.md".data], .doc "![a](http://x/a.png)".data)]).1
      ["docs".data, "a.md".data] =
    fsGet [(["docs".data, "a.md".data], .doc "![a](http://x/a.png)".data)]
      ["docs".data, "a.md".data] :=
  ⟨by decide, claim8 true true (netOf [.ok 200 "image/png".data [1]]) 3 []
    "docs".data "20240101".data
    [(["docs".data, "a.md".data], .doc "![a](http://x/a.png)".data)]
    ["docs".data, "a.md".data] (by decide)⟩

/-! ### Claim C7

The nested-reference counterexample shows the "zero remaining http image
URLs" part of C7 false as stated; the amended theorem proves it for
non-nested documents: plain text and alt texts free of `!` and `]`,
URLs free of `)`, `!` and `]`.  The lemmas below show that in such a
document each reference's markup occurs exactly at its own slot, that
replacements cannot re-expose a match, and that the scanner finds
exactly the listed references. -/

/-- Two strings ending in the same separator-terminated block agree when
one is a prefix of the other and neither contains the separator. -/
theorem sep_prefix {c : Char} :
    ∀ {a b : Str} {x y : Str}, c ∉ a → c ∉ b →
      (a ++ c :: x) <+: (b ++ c :: y) → a = b ∧ x <+: y := by
  intro a
  induction a with
  | nil =>
    intro b x y _ hb h
    cases b with
    | nil =>
      simp only [List.nil_append, List.cons_prefix_cons] at h
      exact ⟨rfl, h.2⟩
    | cons d b' =>
      simp only [List.nil_append, List.cons_append,
        List.cons_prefix_cons] at h
      exact absurd (h.1 ▸ List.mem_cons_self d b') (by
        intro hmem
        exact hb (h.1 ▸ List.mem_cons_self d b'))
  | cons e a' ih =>
    intro b x y ha hb h
    cases b with
    | nil =>
      simp only [List.cons_append, List.nil_append,
        List.cons_prefix_cons] at h
      exact absurd (h.1 ▸ List.mem_cons_self e a') (by
        intro _
        exact ha (h.1 ▸ List.mem_cons_self e a'))
    | cons d b' =>
      simp only [List.cons_append, List.cons_prefix_cons] at h
      obtain ⟨hed, hrest⟩ := h
      obtain ⟨hab, hxy⟩ := ih (fun hm => ha (List.mem_cons_of_mem _ hm))
        (fun hm => hb (List.mem_cons_of_mem _ hm)) hrest
      exact ⟨by rw [hed, hab], hxy⟩

theorem mkLink_as_cons (a u : Str) (z : Str) :
    mkLink a u ++ z = '!' :: '[' :: (a ++ ']' :: '(' :: (u ++ ')' :: z)) := by
  unfold mkLink
  simp

/-- If one markup pattern is a prefix of another reference's markup (plus
anything), the alt texts agree and the URL blocks are prefix-related. -/
theorem mkLink_prefix_core {a b u v : Str} {z : Str} (ha : ']' ∉ a)
    (hb : ']' ∉ b)
    (h : (mkLink a u).isPrefixOf (mkLink b v ++ z)) :
    a = b ∧ (u ++ [')']) <+: (v ++ ')' :: z) := by
  rw [List.isPrefixOf_iff_prefix] at h
  rw [mkLink_as_cons] at h
  rw [show mkLink a u = '!' :: '[' :: (a ++ ']' :: '(' :: (u ++ [')'])) by
    unfold mkLink; simp] at h
  simp only [List.cons_prefix_cons, true_and] at h
  obtain ⟨hab, hrest⟩ := sep_prefix ha hb h
  refine ⟨hab, ?_⟩
  rw [List.cons_prefix_cons] at hrest
  exact hrest.2

/-- A pattern whose URL starts with `http` is never a prefix at a
replaced link, whose path starts with `local_images/`. -/
theorem pat_not_prefix_done {a b u nm : Str} {u' : Str} (hu : u = 'h' :: u')
    (ha : ']' ∉ a) (hb : ']' ∉ b) (z : Str) :
    ¬ (mkLink a u).isPrefixOf (mkLink b (localRel nm) ++ z) := by
  intro h
  obtain ⟨hab, hpre⟩ := mkLink_prefix_core ha hb h
  rw [hu] at hpre
  simp only [List.cons_append, localRel, List.cons_prefix_cons] at hpre
  exact absurd hpre.1 (by decide)

/-- A pattern is never a prefix at a different pending reference's
markup: the `)`-free URLs would have to be equal. -/
theorem pat_not_prefix_other {a b u v : Str} (ha : ']' ∉ a) (hb : ']' ∉ b)
    (hu : ')' ∉ u) (hv : ')' ∉ v) (hne : u ≠ v) (z : Str) :
    ¬ (mkLink a u).isPrefixOf (mkLink b v ++ z) := by
  intro h
  obtain ⟨hab, hpre⟩ := mkLink_prefix_core ha hb h
  have := sep_prefix hu hv (by simpa using hpre)
  exact hne this.1

theorem hash_prefix_eq {h1 h2 ext : Str} (hl : h1.length = h2.length)
    (h : (h1 ++ ['.']) <+: (h2 ++ '.' :: ext)) : h1 = h2 := by
  obtain ⟨r, hr⟩ := h
  rw [List.append_assoc] at hr
  exact (List.append_inj hr.symm hl.symm).1.symm

/-- `str.replace` walks through text that cannot start the pattern. -/
theorem pyReplace_skip_text {pat : Str} {p' : Str} (hpat : pat = '!' :: p')
    (rep : Str) : ∀ t s, '!' ∉ t →
      pyReplace pat rep (t ++ s) = t ++ pyReplace pat rep s := by
  intro t
  induction t with
  | nil => intro s _; simp
  | cons c t' ih =>
    intro s ht
    simp only [List.cons_append, pyReplace_cons]
    rw [if_neg (by simp [hpat]), if_neg (by
      intro hpre
      rw [List.isPrefixOf_iff_prefix, hpat, List.cons_prefix_cons] at hpre
      exact ht (hpre.1 ▸ List.mem_cons_self c t'))]
    rw [ih s (fun hm => ht (List.mem_cons_of_mem _ hm))]

/-- `str.replace` replaces at an occurrence of the (non-empty) pattern. -/
theorem pyReplace_at {pat : Str} {p' : Str} (hpat : pat = '!' :: p')
    (rep y : Str) :
    pyReplace pat rep (pat ++ y) = rep ++ pyReplace pat rep y := by
  subst hpat
  simp only [List.cons_append, pyReplace_cons]
  rw [if_neg (by simp), if_pos (by
    rw [List.isPrefixOf_iff_prefix]
    exact List.prefix_append _ _)]
  congr 1
  rw [show ('!' :: (p' ++ y)).drop ('!' :: p').length =
      (('!' :: p') ++ y).drop ('!' :: p').length by simp]
  rw [List.drop_left]

/-- `str.replace` walks through a markup piece at which the pattern
cannot match. -/
theorem pyReplace_skip_link {pat : Str} {p' : Str} (hpat : pat = '!' :: p')
    (rep : Str) {body : Str} (hbody : '!' ∉ body)
    {s : Str} (hnp : ¬ pat.isPrefixOf (('!' :: body) ++ s)) :
    pyReplace pat rep (('!' :: body) ++ s) =
      ('!' :: body) ++ pyReplace pat rep s := by
  simp only [List.cons_append, pyReplace_cons]
  rw [if_neg (by simp [hpat]), if_neg (by
    intro hpre
    exact hnp (by simpa using hpre))]
  rw [pyReplace_skip_text hpat rep body s hbody]

/-! #### Clean documents -/

def cleanAlt (a : Str) : Prop := '!' ∉ a ∧ ']' ∉ a ∧ '\n' ∉ a

def cleanUrl (u : Str) : Prop :=
  (∃ u', u = 'h' :: 't' :: 't' :: 'p' :: u' ∧ u' ≠ []) ∧
    ')' ∉ u ∧ '!' ∉ u ∧ ']' ∉ u

def cleanText (t : Str) : Prop := '!' ∉ t ∧ ']' ∉ t

def cleanRef (r : Str × Str) : Prop := cleanAlt r.1 ∧ cleanUrl r.2

def cleanName (nm : Str) : Prop := '!' ∉ nm ∧ ']' ∉ nm

/-- Alternation `t0 · ![a1](u1) · t1 · … · ![an](un) · tn`. -/
def interleave : List Str → List (Str × Str) → Str
  | [], _ => []
  | t :: _, [] => t
  | t :: ts, r :: refs => t ++ (mkLink r.1 r.2 ++ interleave ts refs)

/-- Pieces a processed document is made of: plain text without `!`/`]`,
or a rewritten link pointing into `local_images`. -/
def donePiece (x : Str) : Prop :=
  ('!' ∉ x ∧ ']' ∉ x) ∨
    ∃ a nm, x = mkLink a (localRel nm) ∧ cleanAlt a ∧ cleanName nm

theorem mkLink_head (a u : Str) :
    mkLink a u = '!' :: ('[' :: (a ++ ']' :: '(' :: (u ++ [')']))) := by
  simp [mkLink]

theorem mkLink_body_clean {a u : Str} (ha : '!' ∉ a) (hu : '!' ∉ u) :
    '!' ∉ '[' :: (a ++ ']' :: '(' :: (u ++ [')'])) := by
  intro hmem
  simp only [List.mem_cons, List.mem_append, List.mem_singleton] at hmem
  rcases hmem with h | h
  · exact absurd h (by decide)
  rcases h with h | h
  · exact ha h
  rcases h with h | h
  · exact absurd h (by decide)
  rcases h with h | h
  · exact absurd h (by decide)
  rcases h with h | h
  · exact hu h
  · exact absurd h (by decide)

theorem localRel_no_bang {nm : Str} (h : '!' ∉ nm) : '!' ∉ localRel nm := by
  intro hmem
  rcases List.mem_append.mp hmem with hm | hm
  · exact absurd hm (by decide)
  · exact h hm

theorem localRel_no_rbracket {nm : Str} (h : ']' ∉ nm) : ']' ∉ localRel nm := by
  intro hmem
  rcases List.mem_append.mp hmem with hm | hm
  · exact absurd hm (by decide)
  · exact h hm

/-- `str.replace` with a clean pattern walks through a list of safe
pieces unchanged. -/
theorem pyReplace_join_skip {alt u : Str} (rep : Str) (pieces : List Str)
    (hsafe : ∀ x ∈ pieces, ('!' ∉ x) ∨
      (∃ b, x = '!' :: b ∧ '!' ∉ b ∧
        ∀ z, ¬ (mkLink alt u).isPrefixOf (x ++ z))) :
    ∀ y, pyReplace (mkLink alt u) rep (pieces.flatten ++ y) =
      pieces.flatten ++ pyReplace (mkLink alt u) rep y := by
  induction pieces with
  | nil => intro y; simp
  | cons x ps ih =>
    intro y
    simp only [List.flatten_cons, List.append_assoc]
    rcases hsafe x (List.mem_cons_self _ _) with hx | ⟨b, hb, hbb, hblock⟩
    · rw [pyReplace_skip_text (mkLink_head alt u) rep x _ hx,
        ih (fun z hz => hsafe z (List.mem_cons_of_mem _ hz)) y]
    · subst hb
      rw [pyReplace_skip_link (mkLink_head alt u) rep hbb
        (hblock (ps.flatten ++ y)),
        ih (fun z hz => hsafe z (List.mem_cons_of_mem _ hz)) y]

theorem tryMatch_not_bang {c : Char} {x : Str} (h : c ≠ '!') :
    tryMatch (c :: x) = none := by
  unfold tryMatch
  split
  · next heq =>
    injection heq with h1 _
    exact absurd h1 h
  · rfl

theorem takeWhile_all_stop {p : Char → Bool} :
    ∀ {a : Str} {b : Char} {r : Str}, (∀ c ∈ a, p c = true) → p b = false →
      (a ++ b :: r).takeWhile p = a ∧ (a ++ b :: r).dropWhile p = b :: r := by
  intro a
  induction a with
  | nil =>
    intro b r _ hb
    simp [List.takeWhile_cons, List.dropWhile_cons, hb]
  | cons c a' ih =>
    intro b r ha hb
    have hc : p c = true := ha c (List.mem_cons_self _ _)
    obtain ⟨h1, h2⟩ := ih (b := b) (r := r)
      (fun d hd => ha d (List.mem_cons_of_mem _ hd)) hb
    simp [List.takeWhile_cons, List.dropWhile_cons, hc, h1, h2]

theorem tryClose_at_url {u' rest : Str} (hu : ')' ∉ 'h' :: 't' :: 't' :: 'p' :: u')
    (hne : u' ≠ []) :
    tryClose (']' :: '(' :: (('h' :: 't' :: 't' :: 'p' :: u') ++ ')' :: rest)) =
      some ('h' :: 't' :: 't' :: 'p' :: u', rest) := by
  have hparen : ∀ c ∈ u', (fun c => decide (c ≠ ')')) c = true := by
    intro c hc
    simp only [decide_eq_true_eq]
    intro hcp
    exact hu (by
      subst hcp
      simp [hc])
  obtain ⟨ht, hd⟩ := takeWhile_all_stop (p := fun c => decide (c ≠ ')'))
    (a := u') (b := ')') (r := rest) hparen (by simp)
  unfold tryClose
  simp only [List.cons_append]
  rw [ht, hd]
  cases u' with
  | nil => exact absurd rfl hne
  | cons d u'' => rfl

theorem lazyAlt_at_link {a u rest : Str} (ha : ']' ∉ a ∧ '\n' ∉ a)
    (hu : cleanUrl u) :
    lazyAlt (a ++ ']' :: '(' :: (u ++ ')' :: rest)) = some (a, u, rest) := by
  obtain ⟨⟨u', hu', hune⟩, hpar, _, _⟩ := hu
  induction a with
  | nil =>
    simp only [List.nil_append]
    unfold lazyAlt
    rw [show ']' :: '(' :: (u ++ ')' :: rest) =
      ']' :: '(' :: (('h' :: 't' :: 't' :: 'p' :: u') ++ ')' :: rest) by
        rw [hu']]
    rw [tryClose_at_url (hu' ▸ hpar) hune]
    rw [← hu']
  | cons c a' ih =>
    simp only [List.cons_append]
    unfold lazyAlt
    have hclose : tryClose (c :: (a' ++ ']' :: '(' :: (u ++ ')' :: rest))) =
        none := by
      unfold tryClose
      split
      · next heq =>
        injection heq with h1 _
        exact absurd (h1 ▸ List.mem_cons_self c a') (by
          intro _
          exact ha.1 (h1 ▸ List.mem_cons_self c a'))
      · rfl
    rw [hclose]
    rw [if_neg (by
      intro hc
      exact ha.2 (hc ▸ List.mem_cons_self c a'))]
    rw [ih ⟨fun hm => ha.1 (List.mem_cons_of_mem _ hm),
      fun hm => ha.2 (List.mem_cons_of_mem _ hm)⟩]

theorem tryMatch_at_link {a u rest : Str} (ha : cleanAlt a) (hu : cleanUrl u) :
    tryMatch (mkLink a u ++ rest) = some (a, u, rest) := by
  rw [mkLink_as_cons]
  unfold tryMatch
  exact lazyAlt_at_link ⟨ha.2.1, ha.2.2⟩ hu

theorem findLinks_skip_text {t : Str} (ht : '!' ∉ t) :
    ∀ s, findLinks (t ++ s) = findLinks s := by
  induction t with
  | nil => intro s; rfl
  | cons c t' ih =>
    intro s
    simp only [List.cons_append]
    rw [findLinks_cons]
    rw [tryMatch_not_bang (fun hc => ht (hc ▸ List.mem_cons_self c t'))]
    exact ih (fun hm => ht (List.mem_cons_of_mem _ hm)) s

/-- The scanner on a clean interleaved document yields exactly the
reference list. -/
theorem findLinks_interleave :
    ∀ (refs : List (Str × Str)) (ts : List Str),
      ts.length = refs.length + 1 →
      (∀ t ∈ ts, cleanText t) → (∀ r ∈ refs, cleanRef r) →
      findLinks (interleave ts refs) = refs := by
  intro refs
  induction refs with
  | nil =>
    intro ts hlen hts _
    match ts, hlen with
    | [t], _ =>
      unfold interleave
      rw [show t = t ++ [] by simp]
      rw [findLinks_skip_text (hts t (List.mem_cons_self _ _)).1 []]
      rfl
  | cons r refs ih =>
    intro ts hlen hts hrefs
    match ts with
    | t :: ts' =>
      unfold interleave
      rw [findLinks_skip_text (hts t (List.mem_cons_self _ _)).1]
      have hr := hrefs r (List.mem_cons_self _ _)
      rcases hml : mkLink r.1 r.2 ++ interleave ts' refs with _ | ⟨c, cs⟩
      · exact absurd hml (by simp [mkLink])
      · rw [findLinks_cons, ← hml, tryMatch_at_link hr.1 hr.2]
        dsimp only
        rw [ih ts' (by simpa using hlen)
          (fun x hx => hts x (List.mem_cons_of_mem _ hx))
          (fun x hx => hrefs x (List.mem_cons_of_mem _ hx))]

/-- Scan for an occurrence of `](h`, the only shape at which the regex's
`](http...` close can begin. -/
def hasHO : Str → Bool
  | ']' :: '(' :: 'h' :: _ => true
  | _ :: rest => hasHO rest
  | [] => false

theorem hasHO_cons_ne {c : Char} {x : Str} (h : c ≠ ']') :
    hasHO (c :: x) = hasHO x := by
  conv_lhs => unfold hasHO
  split
  · next heq =>
    injection heq with h1 _
    subst h1
    exact absurd rfl h
  · next y rest heq =>
    injection heq with _ h2
    rw [h2]
  · next heq => exact absurd heq (by simp)

theorem hasHO_triple_ne {c : Char} {x : Str} (h : c ≠ 'h') :
    hasHO (']' :: '(' :: c :: x) = hasHO ('(' :: c :: x) := by
  conv_lhs => unfold hasHO
  split
  · next heq =>
    injection heq with _ heq
    injection heq with _ heq
    injection heq with h1 _
    subst h1
    exact absurd rfl h
  · next y rest heq =>
    injection heq with _ h2
    rw [h2]
  · next heq => exact absurd heq (by simp)

theorem hasHO_tail {c : Char} {x : Str} (h : hasHO (c :: x) = false) :
    hasHO x = false := by
  unfold hasHO at h
  split at h
  · exact absurd h (by simp)
  · next y rest heq =>
    injection heq with _ h2
    rw [h2]
    exact h
  · next heq => exact absurd heq (by simp)

theorem tryClose_none_of_hasHO {s : Str} (h : hasHO s = false) :
    tryClose s = none := by
  unfold tryClose
  split
  · next rest =>
    rw [show hasHO (']' :: '(' :: 'h' :: 't' :: 't' :: 'p' :: rest) = true
      from rfl] at h
    exact absurd h (by simp)
  · rfl

theorem lazyAlt_none_of_hasHO : ∀ {s : Str}, hasHO s = false →
    lazyAlt s = none := by
  intro s
  induction s with
  | nil => intro _; rfl
  | cons c cs ih =>
    intro h
    unfold lazyAlt
    rw [tryClose_none_of_hasHO h]
    by_cases hc : c = '\n'
    · simp [hc]
    · rw [if_neg hc, ih (hasHO_tail h)]

theorem findLinks_nil_of_hasHO : ∀ {s : Str}, hasHO s = false →
    findLinks s = [] := by
  intro s
  induction s with
  | nil => intro _; rfl
  | cons c cs ih =>
    intro h
    rw [findLinks_cons]
    have hm : tryMatch (c :: cs) = none := by
      unfold tryMatch
      split
      · next rest heq =>
        apply lazyAlt_none_of_hasHO
        have h1 : hasHO ('!' :: '[' :: rest) = false := heq ▸ h
        exact hasHO_tail (hasHO_tail h1)
      · rfl
    rw [hm]
    exact ih (hasHO_tail h)

theorem hasHO_append_no_rb {t : Str} (ht : ']' ∉ t) :
    ∀ s, hasHO (t ++ s) = hasHO s := by
  induction t with
  | nil => intro s; rfl
  | cons c t' ih =>
    intro s
    rw [List.cons_append,
      hasHO_cons_ne (fun hc => ht (hc ▸ List.mem_cons_self c t'))]
    exact ih (fun hm => ht (List.mem_cons_of_mem _ hm)) s

theorem hasHO_link {a nm : Str} (ha : ']' ∉ a) (hnm : ']' ∉ nm) (s : Str) :
    hasHO (mkLink a (localRel nm) ++ s) = hasHO s := by
  rw [mkLink_as_cons]
  rw [hasHO_cons_ne (by decide), hasHO_cons_ne (by decide)]
  rw [hasHO_append_no_rb ha]
  rw [show localRel nm ++ ')' :: s =
    'l' :: ("ocal_images/".data ++ (nm ++ ')' :: s)) by simp [localRel]]
  rw [hasHO_triple_ne (by decide)]
  rw [hasHO_cons_ne (by decide), hasHO_cons_ne (by decide)]
  rw [hasHO_append_no_rb (by decide)]
  rw [hasHO_append_no_rb hnm]
  rw [hasHO_cons_ne (by decide)]

theorem hasHO_done_flatten {pieces : List Str}
    (h : ∀ x ∈ pieces, donePiece x) : hasHO pieces.flatten = false := by
  induction pieces with
  | nil => rfl
  | cons x ps ih =>
    rw [List.flatten_cons]
    rcases h x (List.mem_cons_self _ _) with hx | ⟨a, nm, hx, hal, hnm⟩
    · rw [hasHO_append_no_rb hx.2]
      exact ih (fun z hz => h z (List.mem_cons_of_mem _ hz))
    · rw [hx, hasHO_link hal.2.1 hnm.2]
      exact ih (fun z hz => h z (List.mem_cons_of_mem _ hz))

/-- A network answer on which every download attempt succeeds with a
recognized image content type. -/
def goodNet : NetResult → Prop
  | .ok status ct _ =>
    status < 400 ∧ "image/".data.isPrefixOf ct ∧ extMap (lowerStr ct) ≠ []
  | .transportError => False

theorem extMap_no_bang_rb (ct : Str) : '!' ∉ extMap ct ∧ ']' ∉ extMap ct := by
  rcases extMap_cases ct with h | h | h | h | h | h | h <;> rw [h] <;>
    exact ⟨by decide, by decide⟩

theorem cleanName_hashExt (u ct : Str) :
    cleanName (md5Hex u ++ '.' :: extMap (lowerStr ct)) := by
  constructor <;> intro hmem <;> rcases List.mem_append.mp hmem with h | h
  · exact absurd (mem_md5Hex_hexChars h) (by decide)
  · rcases List.mem_cons.mp h with h | h
    · exact absurd h (by decide)
    · exact (extMap_no_bang_rb (lowerStr ct)).1 h
  · exact absurd (mem_md5Hex_hexChars h) (by decide)
  · rcases List.mem_cons.mp h with h | h
    · exact absurd h (by decide)
    · exact (extMap_no_bang_rb (lowerStr ct)).2 h

theorem hash_name_not_prefix {h1 h2 ext : Str} (hne : h1 ≠ h2)
    (hlen : h1.length = h2.length) :
    ¬ (h1 ++ ['.']).isPrefixOf (h2 ++ '.' :: ext) := by
  intro hp
  exact hne (hash_prefix_eq hlen (List.isPrefixOf_iff_prefix.mp hp))

theorem glob_miss_preserve {h2 name : Str} {fs : List (Str × List Nat)}
    (hmiss : globMatches h2 fs = [])
    (hname : ¬ (h2 ++ ['.']).isPrefixOf name) (b : List Nat) :
    globMatches h2 (fs ++ [(name, b)]) = [] := by
  unfold globMatches at hmiss ⊢
  rw [List.map_append, List.filter_append, hmiss]
  simpa using hname

/-- The pieces the pending tail of a clean document is made of. -/
def pendingPieces : List Str → List (Str × Str) → List Str
  | [], _ => []
  | t :: _, [] => [t]
  | t :: ts, r :: refs => t :: mkLink r.1 r.2 :: pendingPieces ts refs

theorem interleave_eq_flatten :
    ∀ ts refs, interleave ts refs = (pendingPieces ts refs).flatten := by
  intro ts
  induction ts with
  | nil => intro refs; cases refs <;> rfl
  | cons t ts ih =>
    intro refs
    cases refs with
    | nil => simp [interleave, pendingPieces]
    | cons r refs =>
      simp [interleave, pendingPieces, ih refs]

/-- A processed (`donePiece`) element never hosts a pending pattern. -/
theorem safe_done_piece {alt u x : Str} (hAlt : cleanAlt alt) (hu : cleanUrl u)
    (hx : donePiece x) :
    ('!' ∉ x) ∨ (∃ b, x = '!' :: b ∧ '!' ∉ b ∧
      ∀ z, ¬ (mkLink alt u).isPrefixOf (x ++ z)) := by
  rcases hx with ⟨hb, _⟩ | ⟨a, nm, hx, ha, hnm⟩
  · exact Or.inl hb
  · right
    refine ⟨'[' :: (a ++ ']' :: '(' :: (localRel nm ++ [')'])),
      by rw [hx, mkLink_head],
      mkLink_body_clean ha.1 (localRel_no_bang hnm.1), ?_⟩
    intro z
    rw [hx]
    obtain ⟨u', hu', _⟩ := hu.1
    exact pat_not_prefix_done hu'
      hAlt.2.1 ha.2.1 z

/-- Neither a clean text nor a different reference's markup hosts the
pattern. -/
theorem pending_safe {alt u : Str} (hAlt : cleanAlt alt) (hu : cleanUrl u) :
    ∀ (ts : List Str) (refs : List (Str × Str)),
      (∀ t ∈ ts, cleanText t) → (∀ r ∈ refs, cleanRef r) →
      (∀ r ∈ refs, u ≠ r.2) →
      ∀ x ∈ pendingPieces ts refs, ('!' ∉ x) ∨
        (∃ b, x = '!' :: b ∧ '!' ∉ b ∧
          ∀ z, ¬ (mkLink alt u).isPrefixOf (x ++ z)) := by
  intro ts
  induction ts with
  | nil => intro refs _ _ _ x hx; cases refs <;> simp [pendingPieces] at hx
  | cons t ts ih =>
    intro refs hts hrefs hne x hx
    cases refs with
    | nil =>
      simp only [pendingPieces, List.mem_singleton] at hx
      exact Or.inl (hx ▸ (hts t (List.mem_cons_self _ _)).1)
    | cons r refs =>
      simp only [pendingPieces, List.mem_cons] at hx
      rcases hx with hx | hx | hx
      · exact Or.inl (hx ▸ (hts t (List.mem_cons_self _ _)).1)
      · right
        have hr := hrefs r (List.mem_cons_self _ _)
        refine ⟨'[' :: (r.1 ++ ']' :: '(' :: (r.2 ++ [')'])),
          by rw [hx, mkLink_head],
          mkLink_body_clean hr.1.1 hr.2.2.2.1, ?_⟩
        intro z
        rw [hx]
        exact pat_not_prefix_other hAlt.2.1 hr.1.2.1 hu.2.1 hr.2.2.1
          (hne r (List.mem_cons_self _ _)) z
      · exact ih refs (fun t ht => hts t (List.mem_cons_of_mem _ ht))
          (fun r hr => hrefs r (List.mem_cons_of_mem _ hr))
          (fun r hr => hne r (List.mem_cons_of_mem _ hr)) x hx

/-- `str.replace` fixes a joined list of safe pieces. -/
theorem pyReplace_flatten_fix {alt u : Str} (rep : Str) (pieces : List Str)
    (hsafe : ∀ x ∈ pieces, ('!' ∉ x) ∨
      (∃ b, x = '!' :: b ∧ '!' ∉ b ∧
        ∀ z, ¬ (mkLink alt u).isPrefixOf (x ++ z))) :
    pyReplace (mkLink alt u) rep pieces.flatten = pieces.flatten := by
  have h := pyReplace_join_skip rep pieces hsafe []
  rw [List.append_nil] at h
  rw [h, pyReplace_nil, if_neg (by simp [mkLink_head]), List.append_nil]

/-- Processing a clean interleaved document with an all-good network and
no cache hits: the content becomes a join of processed pieces, the image
directory grows by one file per reference, one request is logged per
reference, every reference is counted and none fails. -/
theorem processRefs_clean (env : Env) (n : Nat) (hn : 1 ≤ n)
    (hnet : ∀ k, goodNet (env.net k)) :
    ∀ (refs : List (Str × Str)) (ts : List Str) (done : List Str)
      (s : FileState),
      ts.length = refs.length + 1 →
      (∀ t ∈ ts, cleanText t) →
      (∀ r ∈ refs, cleanRef r) →
      (refs.map (fun r => md5Hex r.2)).Pairwise (fun x y => x ≠ y) →
      (∀ r ∈ refs, globMatches (md5Hex r.2) s.dirFiles = []) →
      (∀ x ∈ done, donePiece x) →
      s.content = done.flatten ++ interleave ts refs →
      ∃ done' : List Str,
        (∀ x ∈ done', donePiece x) ∧
        (processRefs env n refs s).content = done'.flatten ∧
        (processRefs env n refs s).dirFiles.length =
          s.dirFiles.length + refs.length ∧
        (processRefs env n refs s).failedDownloads = s.failedDownloads ∧
        (processRefs env n refs s).processedImages =
          s.processedImages + refs.length ∧
        (processRefs env n refs s).netLog.length =
          s.netLog.length + refs.length := by
  intro refs
  induction refs with
  | nil =>
    intro ts done s hlen hts _ _ _ hdone hcontent
    cases ts with
    | nil => simp at hlen
    | cons t ts' =>
      refine ⟨done ++ [t], ?_, ?_, by simp [processRefs],
        by simp [processRefs], by simp [processRefs], by simp [processRefs]⟩
      · intro x hx
        rcases List.mem_append.mp hx with hx | hx
        · exact hdone x hx
        · rw [List.mem_singleton.mp hx]
          exact Or.inl ⟨(hts t (List.mem_cons_self _ _)).1,
            (hts t (List.mem_cons_self _ _)).2⟩
      · simp only [processRefs]
        rw [hcontent]
        simp [interleave]
  | cons r refs ih =>
    obtain ⟨alt, u⟩ := r
    intro ts done s hlen hts hrefs hpw hglob hdone hcontent
    cases ts with
    | nil => simp at hlen
    | cons t ts' =>
      have hlen' : ts'.length = refs.length + 1 := by simpa using hlen
      have hr : cleanRef (alt, u) := hrefs _ (List.mem_cons_self _ _)
      have hAlt : cleanAlt alt := hr.1
      have hu : cleanUrl u := hr.2
      have ht : cleanText t := hts t (List.mem_cons_self _ _)
      have hpwe : (md5Hex u ::
          (refs.map fun r => md5Hex r.2)).Pairwise (fun x y => x ≠ y) := by
        simpa using hpw
      have hhne : ∀ r' ∈ refs, md5Hex u ≠ md5Hex r'.2 := by
        intro r' hr'
        exact (List.pairwise_cons.mp hpwe).1 _ (List.mem_map.mpr ⟨r', hr', rfl⟩)
      have hne' : ∀ r' ∈ refs, u ≠ r'.2 := fun r' hr' h =>
        hhne r' hr' (by rw [h])
      have hg := hnet s.netLog.length
      rcases hres : env.net s.netLog.length with _ | ⟨status, ct, body⟩
      · rw [hres] at hg
        simp [goodNet] at hg
      rw [hres] at hg
      simp only [goodNet] at hg
      obtain ⟨hst, hct, hmap⟩ := hg
      have hmiss : globMatches (md5Hex u) s.dirFiles = [] :=
        hglob (alt, u) (List.mem_cons_self _ _)
      have hstep := @processOneRef_success env n s alt u ct status body
        hn hmiss hres hst hct hmap
      have hpend := pending_safe hAlt hu ts' refs
        (fun x hx => hts x (List.mem_cons_of_mem _ hx))
        (fun x hx => hrefs x (List.mem_cons_of_mem _ hx)) hne'
      have hcontent1 :
          pyReplace (mkLink alt u)
            (mkLink alt (localRel (md5Hex u ++ '.' :: extMap (lowerStr ct))))
            s.content =
          (done ++ [t, mkLink alt
              (localRel (md5Hex u ++ '.' :: extMap (lowerStr ct)))]).flatten ++
            interleave ts' refs := by
        rw [hcontent]
        rw [show interleave (t :: ts') ((alt, u) :: refs) =
            t ++ (mkLink alt u ++ interleave ts' refs) from rfl]
        rw [pyReplace_join_skip _ done
          (fun x hx => safe_done_piece hAlt hu (hdone x hx))
          (t ++ (mkLink alt u ++ interleave ts' refs))]
        rw [pyReplace_skip_text (mkLink_head alt u) _ t
          (mkLink alt u ++ interleave ts' refs) ht.1]
        rw [pyReplace_at (mkLink_head alt u) _ (interleave ts' refs)]
        rw [interleave_eq_flatten ts' refs]
        rw [pyReplace_flatten_fix _ (pendingPieces ts' refs) hpend]
        simp [List.flatten_append, List.append_assoc]
      obtain ⟨done', hd1, hd2, hd3, hd4, hd5, hd6⟩ :=
        ih ts'
          (done ++ [t, mkLink alt
            (localRel (md5Hex u ++ '.' :: extMap (lowerStr ct)))])
          { s with
              content := pyReplace (mkLink alt u)
                (mkLink alt
                  (localRel (md5Hex u ++ '.' :: extMap (lowerStr ct))))
                s.content,
              dirFiles := s.dirFiles ++
                [(md5Hex u ++ '.' :: extMap (lowerStr ct), body)],
              netLog := u :: s.netLog,
              processedImages := s.processedImages + 1 }
          hlen'
          (fun x hx => hts x (List.mem_cons_of_mem _ hx))
          (fun x hx => hrefs x (List.mem_cons_of_mem _ hx))
          (List.pairwise_cons.mp hpwe).2
          (by
            intro r' hr'
            exact glob_miss_preserve (hglob r' (List.mem_cons_of_mem _ hr'))
              ( hash_name_not_prefix (fun h => hhne r' hr' h.symm)
                (by rw [md5Hex_length, md5Hex_length])) body)
          (by
            intro x hx
            rcases List.mem_append.mp hx with hx | hx
            · exact hdone x hx
            · rcases List.mem_cons.mp hx with hx | hx
              · exact hx ▸ Or.inl ⟨ht.1, ht.2⟩
              · rw [List.mem_singleton.mp hx]
                exact Or.inr ⟨alt, md5Hex u ++ '.' :: extMap (lowerStr ct),
                  rfl, hAlt, cleanName_hashExt u ct⟩)
          hcontent1
      rw [show processRefs env n ((alt, u) :: refs) s =
          processRefs env n refs (processOneRef env n s (alt, u)) from rfl,
        hstep]
      refine ⟨done', hd1, hd2, ?_, ?_, ?_, ?_⟩
      · rw [hd3]
        simp only [List.length_append, List.length_cons, List.length_nil]
        omega
      · rw [hd4]
      · rw [hd5]
        simp only [List.length_cons]
        omega
      · rw [hd6]
        simp only [List.length_cons]
        omega

/-- Counterexample to claim C7: the document `![![b](http://u)](http://w)`
holds one reference, which resolves successfully (no failed download, one
image processed), yet the processed text still contains an `http` image
link: the rewritten alt text recombines with the trailing `](http://w)`
into a fresh match. -/
theorem claim7_cx :
    (findLinks "![![b](http://u)](http://w)".data).length = 1 ∧
    (process_markdown_file ⟨fun _ => NetResult.ok 200 "image/jpeg".data [7]⟩
      3 (st0 "![![b](http://u)](http://w)".data [])).1.failedDownloads = 0 ∧
    (process_markdown_file ⟨fun _ => NetResult.ok 200 "image/jpeg".data [7]⟩
      3 (st0 "![![b](http://u)](http://w)".data [])).1.processedImages = 1 ∧
    findLinks (process_markdown_file
      ⟨fun _ => NetResult.ok 200 "image/jpeg".data [7]⟩
      3 (st0 "![![b](http://u)](http://w)".data [])).1.content ≠ [] := by
  decide

/-- Claim C7 (amended): for a clean interleaved document — texts and alt
texts free of markup metacharacters, `http` URLs free of `)`/`!`/`]`,
pairwise-distinct URL hashes — with every request answered by a good image
response and no pre-existing cache entries, processing leaves no `http`
image link in the text, adds exactly one file per reference to the local
image directory, and fails no download. -/
theorem claim7 (env : Env) (n : Nat) (refs : List (Str × Str))
    (ts : List Str) (s : FileState)
    (hn : 1 ≤ n)
    (hnet : ∀ k, goodNet (env.net k))
    (hlen : ts.length = refs.length + 1)
    (hts : ∀ t ∈ ts, cleanText t)
    (hrefs : ∀ r ∈ refs, cleanRef r)
    (hpw : (refs.map (fun r => md5Hex r.2)).Pairwise (fun x y => x ≠ y))
    (hglob : ∀ r ∈ refs, globMatches (md5Hex r.2) s.dirFiles = [])
    (hcontent : s.content = interleave ts refs) :
    findLinks (process_markdown_file env n s).1.content = [] ∧
    (process_markdown_file env n s).1.dirFiles.length =
      s.dirFiles.length + refs.length ∧
    (process_markdown_file env n s).1.failedDownloads =
      s.failedDownloads := by
  have hlinks : findLinks s.content = refs := by
    rw [hcontent]; exact findLinks_interleave refs ts hlen hts hrefs
  by_cases hre : refs = []
  · subst hre
    have hpm0 : process_markdown_file env n s = (s, false) := by
      simp [process_markdown_file, hlinks]
    rw [hpm0]
    exact ⟨hlinks, by simp, rfl⟩
  · obtain ⟨done', hd1, hd2, hd3, hd4, _, _⟩ :=
      processRefs_clean env n hn hnet refs ts [] s hlen hts hrefs hpw hglob
        (by intro x hx; simp at hx) (by simpa using hcontent)
    have hpm : process_markdown_file env n s =
        (processRefs env n refs s, true) := by
      simp [process_markdown_file, hlinks, hre]
    rw [hpm]
    refine ⟨?_, hd3, hd4⟩
    rw [hd2]
    exact findLinks_nil_of_hasHO (hasHO_done_flatten hd1)

/-- Witness for the amended C7 at a concrete one-reference clean
document. -/
theorem claim7_witness :
    findLinks (process_markdown_file
        ⟨fun _ => NetResult.ok 200 "image/png".data [7]⟩ 3
        (st0 (interleave ["doc ".data, " end".data]
          [("logo".data, "http://e/a.png".data)]) [])).1.content = [] ∧
    (process_markdown_file
        ⟨fun _ => NetResult.ok 200 "image/png".data [7]⟩ 3
        (st0 (interleave ["doc ".data, " end".data]
          [("logo".data, "http://e/a.png".data)]) [])).1.dirFiles.length =
      (st0 (interleave ["doc ".data, " end".data]
        [("logo".data, "http://e/a.png".data)]) []).dirFiles.length + 1 ∧
    (process_markdown_file
        ⟨fun _ => NetResult.ok 200 "image/png".data [7]⟩ 3
        (st0 (interleave ["doc ".data, " end".data]
          [("logo".data, "http://e/a.png".data)]) [])).1.failedDownloads =
      (st0 (interleave ["doc ".data, " end".data]
        [("logo".data, "http://e/a.png".data)]) []).failedDownloads :=
  claim7 ⟨fun _ => NetResult.ok 200 "image/png".data [7]⟩ 3
    [("logo".data, "http://e/a.png".data)]
    ["doc ".data, " end".data]
    (st0 (interleave ["doc ".data, " end".data]
      [("logo".data, "http://e/a.png".data)]) [])
    (by decide)
    (fun k => ⟨by decide, by decide, by decide⟩)
    (by decide)
    (by
      intro t htm
      rcases List.mem_cons.mp htm with h | h
      · exact h ▸ ⟨by decide, by decide⟩
      · rw [List.mem_singleton.mp h]
        exact ⟨by decide, by decide⟩)
    (by
      intro r hr
      rw [List.mem_singleton.mp hr]
      exact ⟨⟨by decide, by decide, by decide⟩,
        ⟨"://e/a.png".data, by decide, by decide⟩,
        by decide, by decide, by decide⟩)
    (by simp)
    (fun r hr => rfl)
    rfl
